import Mathlib

/-!
# Static-path HMC kernel (`src/stan/mcmc/static_hmc.hpp`)

A shallow embedding of `unit_metric_hmc` and `adapt_unit_metric_hmc`.

Modelling conventions.

* A C++ `double` is the rational number it holds. The arguments of the
  definitions range over all rationals; the binary64 values among them
  (`is_double`) are the ones a program can hold. The product `_epsilon * _L`
  and the quotient `_T / _epsilon` of binary64 operands are rounded to the
  nearest binary64 value, ties to even (`machine_product`,
  `machine_quotient`); on other operands the exact value is kept. The rounding
  has the 53-bit significand of binary64 and no limit on the exponent: where
  overflow or underflow of a result matters, the theorems ask for a result in
  the normal range (`normal_range`).
* Infinities and NaN are not values of a kernel member. A quotient that is not
  finite is handled together with the conversion to `int` that consumes it, and
  an infinite final energy has its own embedding of the acceptance test
  (`metropolis`).
* `static_cast<int>` truncates toward zero when the truncated value fits a
  32-bit `int`. Otherwise the conversion has no defined result; the value the
  machine produces is a parameter of the model (`Platform`), constrained only
  to be an `int`.
* The trajectory loop is given twice: `trajectory_int` is the loop with its
  32-bit counter, run for a bounded number of steps, and `trajectory` is the
  state in which it exits. The loop exits exactly when `_L <= INT_MAX`
  (`trajectory_int_exits`, `trajectory_int_never_exits`). Likewise
  `sample_run` is `sample` with the bounded loop and `sample` the result of a
  call that returns (`sample_run_returns`, `sample_run_never_returns`).
* The collaborators declared outside this file (`hmc_base`, the Hamiltonian,
  the integrator, the random stream, the adapter, `exp`) are parameters. The
  energies, the draws and the values of `exp` are rationals, and the
  difference `H0 - H(z)` handed to `exp` is their exact difference.
-/

namespace stan.mcmc

/-! ## Machine integers -/

/-- Smallest value of a 32-bit `int`. -/
def INT_MIN : ℤ := -2147483648

/-- Largest value of a 32-bit `int`. -/
def INT_MAX : ℤ := 2147483647

/-! ## Binary64 rounding -/

/-- Rounding of a rational to the nearest integer, ties to the even one. -/
def round_half_even (y : ℚ) : ℤ :=
  if y - ⌊y⌋ < 1 / 2 then ⌊y⌋
  else if 1 / 2 < y - ⌊y⌋ then ⌊y⌋ + 1
  else if ⌊y⌋ % 2 = 0 then ⌊y⌋ else ⌊y⌋ + 1

/-- The unit in the last place of the binade of `x`, for a significand of 53
bits. -/
def ulp (x : ℚ) : ℚ := 2 ^ (Int.log 2 |x| - 52)

/-- Rounding to the nearest number with a significand of 53 bits, ties to
even: the rounding of binary64 arithmetic. -/
def round64 (x : ℚ) : ℚ := round_half_even (x / ulp x) * ulp x

/-- The rational is a binary64 value: the rounding leaves it alone. -/
def is_double (x : ℚ) : Prop := round64 x = x

instance (x : ℚ) : Decidable (is_double x) := by
  unfold is_double; infer_instance

/-- The quotient `t / e` as the machine computes it: rounded when both operands
are binary64 values. -/
def machine_quotient (t e : ℚ) : ℚ :=
  if is_double t ∧ is_double e then round64 (t / e) else t / e

/-- The product `a * b` as the machine computes it: rounded when both operands
are binary64 values. -/
def machine_product (a b : ℚ) : ℚ :=
  if is_double a ∧ is_double b then round64 (a * b) else a * b

/-- The magnitudes of the normal binary64 values: on a result in this range
the rounding of this file, which has no limit on the exponent, is the rounding
of the machine. -/
def normal_range (x : ℚ) : Prop := (2 : ℚ) ^ (-1022 : ℤ) ≤ |x| ∧ |x| < 2 ^ (1024 : ℤ)

instance (x : ℚ) : Decidable (normal_range x) := by
  unfold normal_range
  infer_instance

/-- The binary64 value nearest to `0.1`: the value of the literal `0.1`. -/
def double_tenth : ℚ := 3602879701896397 / 36028797018963968

/-- The binary64 value nearest to `0.3`. -/
def double_three_tenths : ℚ := 5404319552844595 / 18014398509481984

/-- The binary64 value nearest to `0.7`. -/
def double_seven_tenths : ℚ := 3152519739159347 / 4503599627370496

/-- The binary64 value next below `7`, which is `7 - 2 ^ -50`. -/
def below_seven : ℚ := 7881299347898367 / 1125899906842624

/-! ## The double-to-int conversion -/

/-- What the machine stores when `static_cast<int>(t / e)` is applied to a
quotient that no `int` represents (division by zero, or a truncated value
outside the `int` range). The result is some `int`, a function of the two
operands. -/
structure Platform where
  unrepresentable : ℚ → ℚ → ℤ
  is_int : ∀ t e, INT_MIN ≤ unrepresentable t e ∧ unrepresentable t e ≤ INT_MAX

/-- Truncation toward zero, the rounding of `static_cast<int>`. -/
def truncate (x : ℚ) : ℤ := if 0 ≤ x then ⌊x⌋ else ⌈x⌉

/-- The quotient `t / e` is finite and its truncation fits an `int`. -/
def representable (t e : ℚ) : Prop :=
  e ≠ 0 ∧ (INT_MIN : ℚ) - 1 < machine_quotient t e ∧
    machine_quotient t e < (INT_MAX : ℚ) + 1

instance (t e : ℚ) : Decidable (representable t e) := by
  unfold representable; infer_instance

/-- The expression `static_cast<int>(_T / _epsilon)` of `_update_L`. -/
def static_cast_int (pf : Platform) (t e : ℚ) : ℤ :=
  if representable t e then truncate (machine_quotient t e) else pf.unrepresentable t e

/-- A machine whose out-of-range conversions give `INT_MIN`. -/
def indefinite : Platform where
  unrepresentable := fun _ _ => INT_MIN
  is_int := fun _ _ => ⟨le_refl INT_MIN, show INT_MIN ≤ INT_MAX by decide⟩

/-! ## The kernel state and its setters -/

/-- Data members of `unit_metric_hmc`: the triple declared in the class, and
the state inherited from `hmc_base` (random stream `rng`, Hamiltonian and
integrator objects `coll`). -/
structure unit_metric_hmc (G C : Type) where
  _epsilon : ℚ
  _L : ℚ
  _T : ℚ
  rng : G
  coll : C

namespace unit_metric_hmc

variable {G C : Type}

/-- Source: `void _update_L() { _L = static_cast<int>(_T / _epsilon); }`. -/
def _update_L (pf : Platform) (k : unit_metric_hmc G C) : unit_metric_hmc G C :=
  { k with _L := (static_cast_int pf k._T k._epsilon : ℤ) }

/-- Source: `_epsilon = e; _T = t; _update_L();`. -/
def set_stepsize_and_T (pf : Platform) (e t : ℚ) (k : unit_metric_hmc G C) :
    unit_metric_hmc G C :=
  _update_L pf { k with _epsilon := e, _T := t }

/-- Source: `_epsilon = e; _L = l; _T = _epsilon * _L;`. -/
def set_stepsize_and_L (e l : ℚ) (k : unit_metric_hmc G C) : unit_metric_hmc G C :=
  { k with _epsilon := e, _L := l, _T := machine_product e l }

/-- Source: `_T = t; _update_L();`. -/
def set_T (pf : Platform) (t : ℚ) (k : unit_metric_hmc G C) : unit_metric_hmc G C :=
  _update_L pf { k with _T := t }

/-- Source: `_epsilon = e; _update_L();`. -/
def set_stepsize (pf : Platform) (e : ℚ) (k : unit_metric_hmc G C) : unit_metric_hmc G C :=
  _update_L pf { k with _epsilon := e }

/-- The constructor: `_epsilon(0.1), _T(1)` and then `_update_L()`, with the
binary64 value of the literal `0.1`. The base class state is whatever
`hmc_base(m)` builds. -/
def new (pf : Platform) (rng : G) (coll : C) : unit_metric_hmc G C :=
  _update_L pf { _epsilon := double_tenth, _L := 0, _T := 1, rng := rng, coll := coll }

end unit_metric_hmc

/-! ## Collaborators declared outside `static_hmc.hpp` -/

/-- Modelled from the spec: `ps_point` (declared outside this file), the
phase-space point with position `q`, momentum `p` and discrete state `r`. -/
structure ps_point where
  q : List ℚ
  p : List ℚ
  r : List ℤ

/-- Modelled from the spec: the constructor `ps_point z(n)`, a point whose
position and momentum have `n` coordinates (taken as zero) and whose discrete
state is empty. -/
def ps_point.new (n : ℕ) : ps_point :=
  { q := List.replicate n 0, p := List.replicate n 0, r := [] }

/-- The members of `hmc_base` that `sample` calls, and `exp` from the C++
library. `G` is the state of the random stream, `C` the state of the
Hamiltonian and integrator objects; every call that receives the working
point by reference maps the pair of collaborator state and point to a new
pair. -/
structure hmc_base (G C : Type) where
  _rand_unit_gaus : G → ℚ × G
  _rand_uniform : G → ℚ × G
  sampleP : C × ps_point → List ℚ → C × ps_point
  init : C × ps_point → C × ps_point
  H : C × ps_point → ℚ
  evolve : C × ps_point → ℚ → C × ps_point
  exp : ℚ → ℚ

/-! ## `unit_metric_hmc::sample` -/

/-- Source: `for (int i = 0; i < u.size(); ++i) u(i) = this->_rand_unit_gaus();`
with `u.size() = n`: the draws in index order and the stream left behind. -/
def draw_unit_gaus {G C : Type} (B : hmc_base G C) : ℕ → G → List ℚ × G
  | 0, g => ([], g)
  | n + 1, g =>
    let x := B._rand_unit_gaus g
    let rest := draw_unit_gaus B n x.2
    (x.1 :: rest.1, rest.2)

/-- Source: `++i` on the 32-bit counter. The machine wraps around from
`INT_MAX` to `INT_MIN`; the language leaves that step undefined. -/
def int_succ (i : ℤ) : ℤ := (i + 1 - INT_MIN) % 4294967296 + INT_MIN

/-- Source: `for (int i = 0; i < _L; ++i) { body }` with its `int` counter,
entered with counter `i` and run for at most `fuel` evaluations of the guard;
the comparison converts `i` to `double`. The result is the state in which the
loop exits, `none` when it has not exited yet. -/
def trajectory_int {W : Type} (body : W → W) (L : ℚ) : ℕ → ℤ → W → Option W
  | 0, _, _ => none
  | fuel + 1, i, w =>
    if (i : ℚ) < L then trajectory_int body L fuel (int_succ i) (body w) else some w

/-- The state in which `for (int i = 0; i < _L; ++i) { body }`, entered with
counter `i`, exits: the body is applied while the counter is below `_L`. The
counter is a natural number here; `trajectory_int` has the counter of the
source, and exits in this state if it exits at all. -/
def trajectory {W : Type} (body : W → W) (L : ℚ) (i : ℕ) (w : W) : W :=
  if (i : ℚ) < L then trajectory body L (i + 1) (body w) else w
termination_by ⌈L⌉₊ - i
decreasing_by
  have h : i < ⌈L⌉₊ := Nat.lt_ceil.mpr (by assumption)
  omega

/-- What one call of a `sample` member function leaves behind: the two
reference arguments, the returned `double`, and the kernel object. -/
structure sample_result (K : Type) where
  q : List ℚ
  r : List ℤ
  ret : ℚ
  kernel : K

namespace unit_metric_hmc

variable {G C : Type}

/-- Source: `ps_point z(q.size()); z.q = q; z.r = r;`. -/
def sample_point (q : List ℚ) (r : List ℤ) : ps_point :=
  { ps_point.new q.length with q := q, r := r }

/-- The vector `u` and the stream after filling it. -/
def sample_u (B : hmc_base G C) (k : unit_metric_hmc G C) (q : List ℚ) : List ℚ × G :=
  draw_unit_gaus B q.length k.rng

/-- The working point after `sampleP(z, u)` and `init(z)`. -/
def sample_start (B : hmc_base G C) (k : unit_metric_hmc G C) (q : List ℚ) (r : List ℤ) :
    C × ps_point :=
  B.init (B.sampleP (k.coll, sample_point q r) (sample_u B k q).1)

/-- Source: `double H0 = this->_hamiltonian.H(z);`. -/
def sample_H0 (B : hmc_base G C) (k : unit_metric_hmc G C) (q : List ℚ) (r : List ℤ) : ℚ :=
  B.H (sample_start B k q r)

/-- The trajectory loop of `sample` with its `int` counter, run for at most
`fuel` evaluations of the guard. -/
def sample_loop (B : hmc_base G C) (k : unit_metric_hmc G C) (q : List ℚ) (r : List ℤ)
    (fuel : ℕ) : Option (C × ps_point) :=
  trajectory_int (fun w => B.evolve w k._epsilon) k._L fuel 0 (sample_start B k q r)

/-- The working point with which the trajectory loop exits. -/
def sample_end (B : hmc_base G C) (k : unit_metric_hmc G C) (q : List ℚ) (r : List ℤ) :
    C × ps_point :=
  trajectory (fun w => B.evolve w k._epsilon) k._L 0 (sample_start B k q r)

/-- Source: `double acceptProb = exp(H0 - this->_hamiltonian.H(z));`. -/
def sample_acceptProb (B : hmc_base G C) (k : unit_metric_hmc G C) (q : List ℚ)
    (r : List ℤ) : ℚ :=
  B.exp (sample_H0 B k q r - B.H (sample_end B k q r))

/-- Source: `unit_metric_hmc::sample`, as the result of a call whose trajectory
loop exits. The test `acceptProb > 1 || this->_rand_uniform() < acceptProb`
evaluates its right operand only when the left one is false. -/
def sample (B : hmc_base G C) (k : unit_metric_hmc G C) (q : List ℚ) (r : List ℤ) :
    sample_result (unit_metric_hmc G C) :=
  let g := (sample_u B k q).2
  let z := sample_end B k q r
  let acceptProb := sample_acceptProb B k q r
  if acceptProb > 1 then
    { q := z.2.q, r := r, ret := 1, kernel := { k with rng := g, coll := z.1 } }
  else
    let x := B._rand_uniform g
    if x.1 < acceptProb then
      { q := z.2.q, r := r, ret := 1, kernel := { k with rng := x.2, coll := z.1 } }
    else
      { q := q, r := r, ret := 0, kernel := { k with rng := x.2, coll := z.1 } }

/-- Source: `unit_metric_hmc::sample` with the `int` counter of its trajectory
loop, the loop run for at most `fuel` evaluations of its guard: `none` when
the loop has not exited by then. -/
def sample_run (B : hmc_base G C) (k : unit_metric_hmc G C) (q : List ℚ) (r : List ℤ)
    (fuel : ℕ) : Option (sample_result (unit_metric_hmc G C)) :=
  match sample_loop B k q r fuel with
  | none => none
  | some z =>
    let g := (sample_u B k q).2
    let acceptProb := B.exp (sample_H0 B k q r - B.H z)
    if acceptProb > 1 then
      some { q := z.2.q, r := r, ret := 1, kernel := { k with rng := g, coll := z.1 } }
    else
      let x := B._rand_uniform g
      if x.1 < acceptProb then
        some { q := z.2.q, r := r, ret := 1, kernel := { k with rng := x.2, coll := z.1 } }
      else
        some { q := q, r := r, ret := 0, kernel := { k with rng := x.2, coll := z.1 } }

end unit_metric_hmc

/-! ## `adapt_unit_metric_hmc` -/

/-- Data members of `adapt_unit_metric_hmc`: the base kernel and the state of
the `adapter` base class. -/
structure adapt_unit_metric_hmc (G C A : Type) where
  base : unit_metric_hmc G C
  adapter : A

/-- Source: `adapt_unit_metric_hmc::sample`. The member `_learn_stepsize` of
`adapter` (declared outside this file) receives `_epsilon` by reference and the
acceptance statistic; here it maps the adapter state and these two to the new
adapter state and the new `_epsilon`. -/
def adapt_unit_metric_hmc.sample {G C A : Type} (pf : Platform) (B : hmc_base G C)
    (_learn_stepsize : A → ℚ → ℚ → A × ℚ) (k : adapt_unit_metric_hmc G C A) (q : List ℚ)
    (r : List ℤ) : sample_result (adapt_unit_metric_hmc G C A) :=
  let res := unit_metric_hmc.sample B k.base q r
  let accept_stat := res.ret
  let learned := _learn_stepsize k.adapter res.kernel._epsilon accept_stat
  { q := res.q, r := res.r, ret := accept_stat,
    kernel := { base := unit_metric_hmc._update_L pf { res.kernel with _epsilon := learned.2 },
                adapter := learned.1 } }

/-! ## Sequences of setter calls -/

/-- One call of a public setter of `unit_metric_hmc`, with its arguments. -/
inductive setter_call where
  | stepsize_and_T (e t : ℚ)
  | stepsize_and_L (e l : ℚ)
  | T (t : ℚ)
  | stepsize (e : ℚ)

namespace setter_call

variable {G C : Type}

/-- The effect of the call on the kernel. -/
def apply (pf : Platform) : setter_call → unit_metric_hmc G C → unit_metric_hmc G C
  | stepsize_and_T e t, k => k.set_stepsize_and_T pf e t
  | stepsize_and_L e l, k => k.set_stepsize_and_L e l
  | T t, k => k.set_T pf t
  | stepsize e, k => k.set_stepsize pf e

/-- Valid arguments: `epsilon > 0`, `T > 0`, `L` a positive integer. -/
def valid : setter_call → Prop
  | stepsize_and_T e t => 0 < e ∧ 0 < t
  | stepsize_and_L e l => 0 < e ∧ 0 < l ∧ ∃ n : ℕ, l = n
  | T t => 0 < t
  | stepsize e => 0 < e

/-- The quotient that the call hands to `static_cast<int>` is below
`INT_MAX + 1`; for `set_stepsize_and_L`, which converts nothing, the product
it stores is in the normal range of binary64 (no overflow, no underflow). -/
def fits : setter_call → unit_metric_hmc G C → Prop
  | stepsize_and_T e t, _ => machine_quotient t e < (INT_MAX : ℚ) + 1
  | stepsize_and_L e l, _ =>
    (2 : ℚ) ^ (-1022 : ℤ) ≤ machine_product e l ∧ machine_product e l < 2 ^ (1024 : ℤ)
  | T t, k => machine_quotient t k._epsilon < (INT_MAX : ℚ) + 1
  | stepsize e, k => machine_quotient k._T e < (INT_MAX : ℚ) + 1

end setter_call

/-- The kernel states after each call of a sequence, in order. -/
def history {G C : Type} (pf : Platform) :
    List setter_call → unit_metric_hmc G C → List (unit_metric_hmc G C)
  | [], _ => []
  | c :: cs, k => c.apply pf k :: history pf cs (c.apply pf k)

/-- Every call of the sequence satisfies `fits` in the state it is made in. -/
def fits_throughout {G C : Type} (pf : Platform) :
    List setter_call → unit_metric_hmc G C → Prop
  | [], _ => True
  | c :: cs, k => c.fits k ∧ fits_throughout pf cs (c.apply pf k)

/-- The invariant of the step-size state: `L == floor(T / epsilon)`, with the
quotient as the machine computes it. -/
def L_is_floor {G C : Type} (k : unit_metric_hmc G C) : Prop :=
  k._L = (⌊machine_quotient k._T k._epsilon⌋ : ℤ)

/-- What a setter call leaves behind: the three setters that end with
`_update_L` leave `L == floor(T / epsilon)`; `set_stepsize_and_L(e, l)` leaves
the triple `e`, `l` and the machine product of the two. -/
def setter_call.leaves {G C : Type} : setter_call → unit_metric_hmc G C → Prop
  | setter_call.stepsize_and_L e l, k =>
    k._epsilon = e ∧ k._L = l ∧ k._T = machine_product e l
  | _, k => L_is_floor k

/-! ## The acceptance test with an infinite final energy -/

/-- Source: `H0 - this->_hamiltonian.H(z)` for a finite `H0` and a final energy
that is finite or `+infinity` (`none`): a finite number minus `+infinity` is
`-infinity` (`none`). -/
def energy_drop (H0 : ℚ) : WithTop ℚ → WithBot ℚ
  | none => none
  | some h => some (H0 - h)

/-- Source: lines 91 to 100 of `sample`, from `double acceptProb = ...` to
`return accept`, for a final energy `Hf` that may be `+infinity`. `ex` is the
library function `exp` on the finite numbers and `-infinity`; `q` is the
position supplied by the caller, `zq` the final position of the trajectory,
`g` the stream. The result is the position, the returned value and the
stream. -/
def metropolis {G : Type} (ex : WithBot ℚ → ℚ) (rand_uniform : G → ℚ × G) (H0 : ℚ)
    (Hf : WithTop ℚ) (q zq : List ℚ) (g : G) : List ℚ × ℚ × G :=
  let acceptProb := ex (energy_drop H0 Hf)
  if acceptProb > 1 then (zq, 1, g)
  else
    let x := rand_uniform g
    if x.1 < acceptProb then (zq, 1, x.2) else (q, 0, x.2)

/-- A stand-in for `exp` on the finite numbers and `-infinity`: `0` at
`-infinity` and the lower bound `1 + x` at a finite `x`. -/
def exp_lower : WithBot ℚ → ℚ
  | none => 0
  | some x => 1 + x

/-! ## A concrete set of collaborators -/

/-- Modelled from the spec: one step of the standard leapfrog integrator
(declared outside this file) for the potential `q^2 / 2` with unit metric:
half step of the momentum, full step of the position, half step of the
momentum. -/
def leapfrog (eps : ℚ) (z : ps_point) : ps_point :=
  let p_half := List.zipWith (fun p q => p - eps / 2 * q) z.p z.q
  let q_new := List.zipWith (fun q p => q + eps * p) z.q p_half
  { z with q := q_new, p := List.zipWith (fun p q => p - eps / 2 * q) p_half q_new }

/-- Modelled from the spec: the standard normal target with unit metric and a
fixed random stream. Every standard-normal draw is `g`, every uniform draw is
`u`; the stream state counts the draws made, the collaborator state counts the
calls of `evolve`. `sampleP` sets the momentum to the draws, the energy is
`q^2 / 2 + p^2 / 2` summed over the coordinates, and `exp x` is replaced by its
lower bound `1 + x`. -/
def normal_target (g u : ℚ) : hmc_base ℕ ℕ where
  _rand_unit_gaus := fun n => (g, n + 1)
  _rand_uniform := fun n => (u, n + 1)
  sampleP := fun w draws => (w.1, { w.2 with p := draws })
  init := fun w => w
  H := fun w => (w.2.q.map (fun x => x ^ 2 / 2)).sum + (w.2.p.map (fun x => x ^ 2 / 2)).sum
  evolve := fun w eps => (w.1 + 1, leapfrog eps w.2)
  exp := fun x => 1 + x

/-- A kernel with the given triple, a fresh stream and fresh collaborators. -/
def kernel_with (epsilon L T : ℚ) : unit_metric_hmc ℕ ℕ :=
  { _epsilon := epsilon, _L := L, _T := T, rng := 0, coll := 0 }

/-- The constructor of `adapt_unit_metric_hmc`: `unit_metric_hmc<M, BaseRNG>(m)`
followed by `adapter()`; `a` is the state that `adapter()` builds. -/
def adapt_unit_metric_hmc.new {G C A : Type} (pf : Platform) (rng : G) (coll : C) (a : A) :
    adapt_unit_metric_hmc G C A :=
  { base := unit_metric_hmc.new pf rng coll, adapter := a }

/-- Modelled from the spec: the collaborators of `normal_target` with the
library function `exp` left open as `ex`. -/
def normal_target_exp (ex : ℚ → ℚ) (g u : ℚ) : hmc_base ℕ ℕ :=
  { normal_target g u with exp := ex }

/-- The kernel of the example scenario: freshly constructed, then
`set_stepsize_and_T(0.5, 1.0)`. -/
def canonical_kernel (pf : Platform) : unit_metric_hmc ℕ ℕ :=
  (unit_metric_hmc.new pf 0 0).set_stepsize_and_T pf (1 / 2) 1


/-! ## Auxiliary facts: the rounding -/

theorem round_half_even_sub_le (y : ℚ) : |(round_half_even y : ℚ) - y| ≤ 1 / 2 := by
  have h1 := Int.floor_le y
  have h2 := Int.lt_floor_add_one y
  unfold round_half_even
  split_ifs with ha hb hc
  · rw [abs_le]; constructor <;> linarith
  · push_cast; rw [abs_le]; constructor <;> linarith
  · have : y - ⌊y⌋ = 1 / 2 := le_antisymm (not_lt.mp hb) (not_lt.mp ha)
    rw [abs_le]; constructor <;> linarith
  · have : y - ⌊y⌋ = 1 / 2 := le_antisymm (not_lt.mp hb) (not_lt.mp ha)
    push_cast; rw [abs_le]; constructor <;> linarith

theorem round_half_even_intCast (n : ℤ) : round_half_even (n : ℚ) = n := by
  simp [round_half_even]

theorem round_half_even_le {y : ℚ} {n : ℤ} (h : y ≤ n) : round_half_even y ≤ n := by
  have h1 := (abs_le.mp (round_half_even_sub_le y)).2
  have h2 : (round_half_even y : ℚ) < (n : ℚ) + 1 := by linarith
  have h3 : (round_half_even y : ℚ) < ((n + 1 : ℤ) : ℚ) := by push_cast; exact h2
  have := Int.cast_lt.mp h3
  omega

theorem le_round_half_even {y : ℚ} {n : ℤ} (h : (n : ℚ) ≤ y) : n ≤ round_half_even y := by
  have h1 := (abs_le.mp (round_half_even_sub_le y)).1
  have h2 : ((n - 1 : ℤ) : ℚ) < (round_half_even y : ℚ) := by push_cast; linarith
  have := Int.cast_lt.mp h2
  omega

theorem round_half_even_eq {y : ℚ} {n : ℤ} (h : |y - n| < 1 / 2) : round_half_even y = n := by
  have h1 := abs_le.mp (round_half_even_sub_le y)
  have h2 := abs_lt.mp h
  have h3 : ((n - 1 : ℤ) : ℚ) < (round_half_even y : ℚ) := by push_cast; linarith
  have h4 : (round_half_even y : ℚ) < ((n + 1 : ℤ) : ℚ) := by push_cast; linarith
  have := Int.cast_lt.mp h3
  have := Int.cast_lt.mp h4
  omega

theorem ulp_pos (x : ℚ) : 0 < ulp x := by
  unfold ulp; positivity

theorem round64_zero : round64 0 = 0 := by
  simp [round64, round_half_even]

/-- The binade of a nonzero rational. -/
theorem binade {x : ℚ} (hx : x ≠ 0) :
    (2 : ℚ) ^ (52 : ℤ) ≤ |x| / ulp x ∧ |x| / ulp x < (2 : ℚ) ^ (53 : ℤ) := by
  have hpos : 0 < |x| := abs_pos.mpr hx
  have h1 := Int.zpow_log_le_self (show 1 < 2 by norm_num) hpos
  have h2 := Int.lt_zpow_succ_log_self (show 1 < 2 by norm_num) |x|
  unfold ulp
  rw [le_div_iff₀ (by positivity), div_lt_iff₀ (by positivity)]
  rw [← zpow_add₀ (by norm_num), ← zpow_add₀ (by norm_num)]
  constructor
  · simpa using h1
  · have : (53 : ℤ) + (Int.log 2 |x| - 52) = Int.log 2 |x| + 1 := by ring
    rw [this]
    simpa using h2


theorem log_eq_of_bounds {r : ℚ} {e : ℤ} (h1 : (2 : ℚ) ^ e ≤ r) (h2 : r < (2 : ℚ) ^ (e + 1)) :
    Int.log 2 r = e := by
  have hpos : 0 < r := lt_of_lt_of_le (by positivity) h1
  have hb : 1 < 2 := by norm_num
  have ha : e ≤ Int.log 2 r := (Int.zpow_le_iff_le_log hb hpos).mp (by simpa using h1)
  have hc : Int.log 2 r < e + 1 := (Int.lt_zpow_iff_log_lt hb hpos).mp (by simpa using h2)
  omega

theorem round64_of_binade {x : ℚ} {e : ℤ} (h1 : (2 : ℚ) ^ e ≤ |x|)
    (h2 : |x| < (2 : ℚ) ^ (e + 1)) :
    round64 x = round_half_even (x / 2 ^ (e - 52)) * 2 ^ (e - 52) := by
  unfold round64 ulp
  rw [log_eq_of_bounds h1 h2]

theorem two_zpow_toNat {j : ℤ} (hj : 0 ≤ j) : (2 : ℚ) ^ j = ((2 ^ j.toNat : ℤ) : ℚ) := by
  have : j = (j.toNat : ℤ) := (Int.toNat_of_nonneg hj).symm
  conv_lhs => rw [this]
  push_cast
  rw [zpow_natCast]

/-- A rational with an integer significand below `2 ^ 53` is left alone by
the rounding. -/
theorem round64_int_mul_zpow (m a : ℤ) (hm : |m| < 2 ^ 53) :
    round64 ((m : ℚ) * 2 ^ a) = (m : ℚ) * 2 ^ a := by
  by_cases h0 : m = 0
  · simp [h0, round64_zero]
  have hx : ((m : ℚ) * 2 ^ a) ≠ 0 := by
    have : (m : ℚ) ≠ 0 := by exact_mod_cast h0
    positivity
  obtain ⟨-, hb⟩ := binade hx
  have hu := ulp_pos ((m : ℚ) * 2 ^ a)
  -- the exponent of the unit in the last place is at most `a`
  have hle : Int.log 2 |(m : ℚ) * 2 ^ a| - 52 ≤ a := by
    have hpos : 0 < |(m : ℚ) * 2 ^ a| := abs_pos.mpr hx
    have h1 := Int.zpow_log_le_self (show 1 < 2 by norm_num) hpos
    have h2 : |(m : ℚ) * 2 ^ a| < 2 ^ (53 + a) := by
      rw [abs_mul, abs_of_pos (show (0 : ℚ) < 2 ^ a by positivity), zpow_add₀ (by norm_num)]
      have : |(m : ℚ)| < 2 ^ (53 : ℤ) := by
        rw [← Int.cast_abs]
        have h53 : ((|m| : ℤ) : ℚ) < ((2 ^ 53 : ℤ) : ℚ) := Int.cast_lt.mpr hm
        norm_num at h53 ⊢
        exact h53
      exact mul_lt_mul_of_pos_right this (by positivity)
    have h3 : (2 : ℚ) ^ Int.log 2 |(m : ℚ) * 2 ^ a| < 2 ^ (53 + a) :=
      lt_of_le_of_lt (by simpa using h1) h2
    have := (zpow_lt_zpow_iff_right₀ (show (1 : ℚ) < 2 by norm_num)).mp h3
    omega
  have hq : (m : ℚ) * 2 ^ a / ulp ((m : ℚ) * 2 ^ a) =
      ((m * 2 ^ (a - (Int.log 2 |(m : ℚ) * 2 ^ a| - 52)).toNat : ℤ) : ℚ) := by
    unfold ulp
    push_cast
    rw [← zpow_natCast, Int.toNat_of_nonneg (by omega), mul_div_assoc,
      ← zpow_sub₀ (by norm_num)]
  unfold round64
  rw [hq, round_half_even_intCast, ← hq]
  field_simp


/-- A nonzero binary64 value is an integer of exactly 53 bits times its unit in
the last place. -/
theorem double_significand {x : ℚ} (hd : is_double x) (hx : x ≠ 0) :
    ∃ m : ℤ, |x| = |(m : ℚ)| * ulp x ∧ (2 : ℚ) ^ (52 : ℤ) ≤ |(m : ℚ)| ∧
      |(m : ℚ)| < (2 : ℚ) ^ (53 : ℤ) := by
  have hu := ulp_pos x
  have hm : (round_half_even (x / ulp x) : ℚ) = x / ulp x := by
    have h : (round_half_even (x / ulp x) : ℚ) * ulp x = x := hd
    field_simp
    exact h
  obtain ⟨h1, h2⟩ := binade hx
  refine ⟨round_half_even (x / ulp x), ?_, ?_, ?_⟩
  · rw [hm, abs_div, abs_of_pos hu]
    field_simp
  · rw [hm, abs_div, abs_of_pos hu]
    exact h1
  · rw [hm, abs_div, abs_of_pos hu]
    exact h2

theorem abs_intCast_succ_le {m n : ℤ} (h : |(m : ℚ)| < |(n : ℚ)|) :
    |(m : ℚ)| + 1 ≤ |(n : ℚ)| := by
  rw [← Int.cast_abs, ← Int.cast_abs] at h ⊢
  have h1 : |m| < |n| := Int.cast_lt.mp h
  have h2 : |m| + 1 ≤ |n| := by omega
  exact_mod_cast h2

theorem abs_intCast_add_one_le (m N : ℤ) (h : |(m : ℚ)| < (N : ℚ)) :
    |(m : ℚ)| + 1 ≤ (N : ℚ) := by
  rw [← Int.cast_abs] at h ⊢
  have h1 : |m| < N := Int.cast_lt.mp h
  have h2 : |m| + 1 ≤ N := by omega
  exact_mod_cast h2

/-- Two binary64 values of different magnitude differ by a relative `2 ^ -53`
at least, also after scaling one of them by a power of two. -/
theorem double_gap {t e : ℚ} (ht : is_double t) (he : is_double e) (k : ℤ)
    (h : |t| < 2 ^ k * |e|) : |t| ≤ 2 ^ k * |e| * (1 - 2 ^ (-53 : ℤ)) := by
  have h53 : (0 : ℚ) ≤ 1 - 2 ^ (-53 : ℤ) := by norm_num
  by_cases ht0 : t = 0
  · rw [ht0, abs_zero]
    positivity
  have he0 : e ≠ 0 := by
    intro h0
    rw [h0, abs_zero, mul_zero] at h
    exact absurd h (not_lt.mpr (abs_nonneg t))
  obtain ⟨m1, hm1, hl1, hu1⟩ := double_significand ht ht0
  obtain ⟨m2, hm2, hl2, hu2⟩ := double_significand he he0
  unfold ulp at hm1 hm2
  generalize Int.log 2 |t| - 52 = a at hm1
  generalize Int.log 2 |e| - 52 = b at hm2
  have hB : 2 ^ k * |e| = |(m2 : ℚ)| * 2 ^ (b + k) := by
    rw [hm2, zpow_add₀ (by norm_num)]; ring
  rw [hB] at h ⊢
  rw [hm1] at h ⊢
  have hpa : (0 : ℚ) < 2 ^ a := by positivity
  have hpc : (0 : ℚ) < 2 ^ (b + k) := by positivity
  rcases lt_trichotomy a (b + k) with hlt | heq | hgt
  · -- the scaled value lies in a higher binade
    have h1 : (2 : ℚ) ^ a ≤ 2 ^ (b + k - 1) :=
      zpow_le_zpow_right₀ (by norm_num) (by omega)
    have h2 : (2 : ℚ) ^ (b + k) = 2 * 2 ^ (b + k - 1) := by
      rw [show b + k = 1 + (b + k - 1) by ring, zpow_add₀ (by norm_num)]
      simp
    have hm1' : |(m1 : ℚ)| + 1 ≤ 2 ^ (53 : ℤ) := by
      have h := abs_intCast_add_one_le m1 9007199254740992 (by norm_num at hu1 ⊢; exact hu1)
      norm_num at h ⊢
      exact h
    rw [h2]
    have hp : (0 : ℚ) < 2 ^ (b + k - 1) := by positivity
    calc |(m1 : ℚ)| * 2 ^ a ≤ (2 ^ (53 : ℤ) - 1) * 2 ^ (b + k - 1) := by
          apply mul_le_mul (by linarith) h1 (le_of_lt hpa) (by norm_num)
      _ ≤ |(m2 : ℚ)| * (2 * 2 ^ (b + k - 1)) * (1 - 2 ^ (-53 : ℤ)) := by
          have : (2 : ℚ) ^ (52 : ℤ) * (2 * 2 ^ (b + k - 1)) * (1 - 2 ^ (-53 : ℤ)) ≤
              |(m2 : ℚ)| * (2 * 2 ^ (b + k - 1)) * (1 - 2 ^ (-53 : ℤ)) := by
            apply mul_le_mul_of_nonneg_right _ h53
            apply mul_le_mul_of_nonneg_right hl2 (by positivity)
          refine le_trans (le_of_eq ?_) this
          norm_num
          ring
  · -- same unit in the last place: the significands differ by one at least
    rw [heq] at h ⊢
    have hlt : |(m1 : ℚ)| < |(m2 : ℚ)| := lt_of_mul_lt_mul_right h (le_of_lt hpc)
    have hs := abs_intCast_succ_le hlt
    have : |(m1 : ℚ)| ≤ |(m2 : ℚ)| * (1 - 2 ^ (-53 : ℤ)) := by
      have : |(m2 : ℚ)| * 2 ^ (-53 : ℤ) ≤ 1 := by
        have := le_of_lt hu2
        norm_num at this ⊢
        linarith
      linarith
    calc |(m1 : ℚ)| * 2 ^ (b + k) ≤ |(m2 : ℚ)| * (1 - 2 ^ (-53 : ℤ)) * 2 ^ (b + k) :=
          mul_le_mul_of_nonneg_right this (le_of_lt hpc)
      _ = |(m2 : ℚ)| * 2 ^ (b + k) * (1 - 2 ^ (-53 : ℤ)) := by ring
  · -- impossible: the value would exceed the scaled one
    exfalso
    have h1 : (2 : ℚ) ^ (b + k + 1) ≤ 2 ^ a :=
      zpow_le_zpow_right₀ (by norm_num) (by omega)
    have h2 : (2 : ℚ) ^ (b + k + 1) = 2 * 2 ^ (b + k) := by
      rw [show b + k + 1 = 1 + (b + k) by ring, zpow_add₀ (by norm_num)]
      simp
    have h3 : |(m2 : ℚ)| * 2 ^ (b + k) < 2 ^ (53 : ℤ) * 2 ^ (b + k) :=
      mul_lt_mul_of_pos_right hu2 hpc
    have h4 : (2 : ℚ) ^ (52 : ℤ) * 2 ^ a ≤ |(m1 : ℚ)| * 2 ^ a :=
      mul_le_mul_of_nonneg_right hl1 (le_of_lt hpa)
    have h5 : (2 : ℚ) ^ (52 : ℤ) * (2 * 2 ^ (b + k)) ≤ 2 ^ (52 : ℤ) * 2 ^ a := by
      rw [← h2]
      exact mul_le_mul_of_nonneg_left h1 (by positivity)
    have h6 : (2 : ℚ) ^ (52 : ℤ) * (2 * 2 ^ (b + k)) = 2 ^ (53 : ℤ) * 2 ^ (b + k) := by
      norm_num
      ring
    linarith


theorem round64_ge_zpow {x : ℚ} {k : ℤ} (h : (2 : ℚ) ^ k ≤ x) : (2 : ℚ) ^ k ≤ round64 x := by
  have hx : 0 < x := lt_of_lt_of_le (by positivity) h
  have hx0 : x ≠ 0 := ne_of_gt hx
  obtain ⟨h1, -⟩ := binade hx0
  have hu := ulp_pos x
  rw [abs_of_pos hx] at h1
  have hy : (((2 ^ 52 : ℤ)) : ℚ) ≤ x / ulp x := by
    norm_num at h1 ⊢
    exact h1
  have hr := le_round_half_even hy
  have hr' : (2 : ℚ) ^ (52 : ℤ) ≤ (round_half_even (x / ulp x) : ℚ) := by
    have : (((2 ^ 52 : ℤ)) : ℚ) ≤ (round_half_even (x / ulp x) : ℚ) := Int.cast_le.mpr hr
    norm_num at this ⊢
    exact this
  have hk : k ≤ Int.log 2 |x| := by
    rw [abs_of_pos hx]
    exact (Int.zpow_le_iff_le_log (show 1 < 2 by norm_num) hx).mp (by simpa using h)
  unfold round64
  calc (2 : ℚ) ^ k ≤ 2 ^ Int.log 2 |x| := zpow_le_zpow_right₀ (by norm_num) hk
    _ = 2 ^ (52 : ℤ) * ulp x := by
        unfold ulp
        rw [← zpow_add₀ (by norm_num)]
        congr 1
        ring
    _ ≤ round_half_even (x / ulp x) * ulp x := mul_le_mul_of_nonneg_right hr' (le_of_lt hu)

theorem round64_nonneg {x : ℚ} (h : 0 ≤ x) : 0 ≤ round64 x := by
  rcases eq_or_lt_of_le h with h0 | hpos
  · rw [← h0, round64_zero]
  · have h1 := Int.zpow_log_le_self (show 1 < 2 by norm_num) hpos
    have h2 : (2 : ℚ) ^ Int.log 2 x ≤ round64 x := round64_ge_zpow (by simpa using h1)
    exact le_trans (by positivity) h2

theorem round64_pos {x : ℚ} (h : 0 < x) : 0 < round64 x := by
  have h1 := Int.zpow_log_le_self (show 1 < 2 by norm_num) h
  have h2 : (2 : ℚ) ^ Int.log 2 x ≤ round64 x := round64_ge_zpow (by simpa using h1)
  exact lt_of_lt_of_le (by positivity) h2

/-- Rounding does not carry a value up to the next power of two when it lies a
relative `2 ^ -53` below it. -/
theorem abs_round64_le {x : ℚ} {k : ℤ} (h : |x| ≤ 2 ^ k * (1 - 2 ^ (-53 : ℤ))) :
    |round64 x| ≤ 2 ^ k * (1 - 2 ^ (-53 : ℤ)) := by
  by_cases hx : x = 0
  · rw [hx, round64_zero, abs_zero]
    have : (0 : ℚ) ≤ 1 - 2 ^ (-53 : ℤ) := by norm_num
    positivity
  have hpos : 0 < |x| := abs_pos.mpr hx
  have hu := ulp_pos x
  have hlog := Int.zpow_log_le_self (show 1 < 2 by norm_num) hpos
  have hlt : |x| < (2 : ℚ) ^ k := by
    have : (2 : ℚ) ^ k * (1 - 2 ^ (-53 : ℤ)) < 2 ^ k := by
      have hk : (0 : ℚ) < 2 ^ k := by positivity
      have : (1 : ℚ) - 2 ^ (-53 : ℤ) < 1 := by norm_num
      nlinarith
    exact lt_of_le_of_lt h this
  have hE : Int.log 2 |x| < k :=
    (Int.lt_zpow_iff_log_lt (show 1 < 2 by norm_num) hpos).mp (by simpa using hlt)
  -- the bound, counted in units in the last place, is an integer
  have hj : 0 ≤ k - Int.log 2 |x| - 1 := by omega
  have hN : (2 : ℚ) ^ k * (1 - 2 ^ (-53 : ℤ)) =
      (((2 ^ (k - Int.log 2 |x| - 1).toNat * (2 ^ 53 - 1) : ℤ)) : ℚ) * ulp x := by
    unfold ulp
    push_cast
    rw [← zpow_natCast, Int.toNat_of_nonneg hj]
    have h1 : (2 : ℚ) ^ k = 2 ^ (k - Int.log 2 |x| - 1) * 2 ^ (53 : ℤ) *
        2 ^ (Int.log 2 |x| - 52) := by
      rw [← zpow_add₀ (by norm_num), ← zpow_add₀ (by norm_num)]
      congr 1
      ring
    rw [h1]
    norm_num
    ring
  generalize (2 ^ (k - Int.log 2 |x| - 1).toNat * (2 ^ 53 - 1) : ℤ) = N at hN
  rw [hN] at h ⊢
  have hy : |x / ulp x| ≤ (N : ℚ) := by
    rw [abs_div, abs_of_pos hu, div_le_iff₀ hu]
    exact h
  obtain ⟨hy1, hy2⟩ := abs_le.mp hy
  have hr1 : -N ≤ round_half_even (x / ulp x) :=
    le_round_half_even (by push_cast; exact hy1)
  have hr2 : round_half_even (x / ulp x) ≤ N := round_half_even_le hy2
  have hr : |(round_half_even (x / ulp x) : ℚ)| ≤ (N : ℚ) := by
    rw [abs_le]
    exact ⟨by exact_mod_cast hr1, by exact_mod_cast hr2⟩
  unfold round64
  rw [abs_mul, abs_of_pos hu]
  exact mul_le_mul_of_nonneg_right hr (le_of_lt hu)

/-- The relative error of the rounding is at most `2 ^ -53`. -/
theorem round64_error (x : ℚ) : |round64 x - x| ≤ 2 ^ (-53 : ℤ) * |x| := by
  by_cases hx : x = 0
  · simp [hx, round64_zero]
  have hpos : 0 < |x| := abs_pos.mpr hx
  have hu := ulp_pos x
  have hlog := Int.zpow_log_le_self (show 1 < 2 by norm_num) hpos
  have h1 := round_half_even_sub_le (x / ulp x)
  have h2 : round64 x - x = ((round_half_even (x / ulp x) : ℚ) - x / ulp x) * ulp x := by
    unfold round64
    field_simp
  rw [h2, abs_mul, abs_of_pos hu]
  have h3 : ulp x = 2 ^ (-52 : ℤ) * 2 ^ Int.log 2 |x| := by
    unfold ulp
    rw [← zpow_add₀ (by norm_num)]
    congr 1
    ring
  calc |(round_half_even (x / ulp x) : ℚ) - x / ulp x| * ulp x ≤ 1 / 2 * ulp x :=
        mul_le_mul_of_nonneg_right h1 (le_of_lt hu)
    _ = 2 ^ (-53 : ℤ) * 2 ^ Int.log 2 |x| := by
        rw [h3]
        norm_num
        ring
    _ ≤ 2 ^ (-53 : ℤ) * |x| := mul_le_mul_of_nonneg_left (by simpa using hlog) (by positivity)


/-! ## The machine quotient and product -/

theorem machine_quotient_of_double {t e : ℚ} (h : is_double (t / e)) :
    machine_quotient t e = t / e := by
  unfold machine_quotient
  split_ifs
  · exact h
  · rfl

theorem machine_product_of_double {a b : ℚ} (h : is_double (a * b)) :
    machine_product a b = a * b := by
  unfold machine_product
  split_ifs
  · exact h
  · rfl

theorem machine_quotient_nonneg {t e : ℚ} (h : 0 ≤ t / e) : 0 ≤ machine_quotient t e := by
  unfold machine_quotient
  split_ifs
  · exact round64_nonneg h
  · exact h

theorem machine_quotient_ge_zpow {t e : ℚ} {k : ℤ} (h : (2 : ℚ) ^ k ≤ t / e) :
    (2 : ℚ) ^ k ≤ machine_quotient t e := by
  unfold machine_quotient
  split_ifs
  · exact round64_ge_zpow h
  · exact h

theorem abs_machine_quotient_lt {t e : ℚ} {k : ℤ} (h : |t| < 2 ^ k * |e|) :
    |machine_quotient t e| < 2 ^ k := by
  have he : 0 < |e| := by
    by_contra hn
    have : |e| = 0 := le_antisymm (not_lt.mp hn) (abs_nonneg e)
    rw [this, mul_zero] at h
    exact absurd h (not_lt.mpr (abs_nonneg t))
  have hk : (0 : ℚ) < 2 ^ k := by positivity
  have hlt : (2 : ℚ) ^ k * (1 - 2 ^ (-53 : ℤ)) < 2 ^ k := by
    have : (1 : ℚ) - 2 ^ (-53 : ℤ) < 1 := by norm_num
    nlinarith
  unfold machine_quotient
  split_ifs with hd
  · have hg := double_gap hd.1 hd.2 k h
    have hq : |t / e| ≤ 2 ^ k * (1 - 2 ^ (-53 : ℤ)) := by
      rw [abs_div, div_le_iff₀ he]
      linarith
    exact lt_of_le_of_lt (abs_round64_le hq) hlt
  · rw [abs_div, div_lt_iff₀ he]
    exact h

theorem machine_quotient_error (t e : ℚ) :
    |machine_quotient t e - t / e| ≤ 2 ^ (-53 : ℤ) * |t / e| := by
  unfold machine_quotient
  split_ifs
  · exact round64_error _
  · rw [sub_self, abs_zero]
    positivity

theorem machine_product_error (a b : ℚ) :
    |machine_product a b - a * b| ≤ 2 ^ (-53 : ℤ) * |a * b| := by
  unfold machine_product
  split_ifs
  · exact round64_error _
  · rw [sub_self, abs_zero]
    positivity

theorem is_double_int_mul_zpow (m a : ℤ) (hm : |m| < 2 ^ 53) : is_double ((m : ℚ) * 2 ^ a) :=
  round64_int_mul_zpow m a hm

theorem is_double_intCast (m : ℤ) (hm : |m| < 2 ^ 53) : is_double (m : ℚ) := by
  have h := is_double_int_mul_zpow m 0 hm
  simpa using h

/-! ## Auxiliary facts: the conversion -/

theorem truncate_of_nonneg {x : ℚ} (h : 0 ≤ x) : truncate x = ⌊x⌋ := by
  simp [truncate, h]

theorem int_range_cast :
    ((INT_MIN : ℤ) : ℚ) - 1 < 0 ∧ (0 : ℚ) < ((INT_MAX : ℤ) : ℚ) + 1 := by
  simp [INT_MIN, INT_MAX]; norm_num

theorem static_cast_int_of_range (pf : Platform) {t e : ℚ} (he : e ≠ 0)
    (h0 : 0 ≤ machine_quotient t e) (h1 : machine_quotient t e < (INT_MAX : ℚ) + 1) :
    static_cast_int pf t e = ⌊machine_quotient t e⌋ := by
  have hr : representable t e := ⟨he, lt_of_lt_of_le int_range_cast.1 h0, h1⟩
  simp [static_cast_int, hr, truncate_of_nonneg h0]

theorem machine_quotient_lt_int {t e : ℚ} (he : e ≠ 0) (h0 : 0 ≤ t / e)
    (h1 : t / e < (INT_MAX : ℚ) + 1) : machine_quotient t e < (INT_MAX : ℚ) + 1 := by
  have hpos : 0 < |e| := abs_pos.mpr he
  have h2 : |t| < 2 ^ (31 : ℤ) * |e| := by
    have : |t| / |e| < 2 ^ (31 : ℤ) := by
      rw [← abs_div, abs_of_nonneg h0]
      refine lt_of_lt_of_le h1 (le_of_eq ?_)
      norm_num [INT_MAX]
    exact (div_lt_iff₀ hpos).mp this
  have h3 := (abs_lt.mp (abs_machine_quotient_lt h2)).2
  refine lt_of_lt_of_le h3 (le_of_eq ?_)
  norm_num [INT_MAX]

theorem static_cast_int_eq_floor (pf : Platform) {t e : ℚ} (he : e ≠ 0) (h0 : 0 ≤ t / e)
    (h1 : t / e < (INT_MAX : ℚ) + 1) : static_cast_int pf t e = ⌊machine_quotient t e⌋ :=
  static_cast_int_of_range pf he (machine_quotient_nonneg h0) (machine_quotient_lt_int he h0 h1)

theorem static_cast_int_zero (pf : Platform) {t e : ℚ} (h : |t| < |e|) :
    static_cast_int pf t e = 0 := by
  have he : e ≠ 0 := by
    intro h0
    rw [h0, abs_zero] at h
    exact absurd h (not_lt.mpr (abs_nonneg t))
  have habs : |machine_quotient t e| < 1 := by
    have := abs_machine_quotient_lt (show |t| < 2 ^ (0 : ℤ) * |e| by simpa using h)
    simpa using this
  obtain ⟨hlo, hhi⟩ := abs_lt.mp habs
  have hr : representable t e :=
    ⟨he, lt_trans (by norm_num [INT_MIN]) hlo, lt_trans hhi (by norm_num [INT_MAX])⟩
  have htr : truncate (machine_quotient t e) = 0 := by
    unfold truncate
    split_ifs with hs
    · rw [Int.floor_eq_iff]
      exact ⟨by simpa using hs, by simpa using hhi⟩
    · rw [Int.ceil_eq_iff]
      exact ⟨by simpa using hlo, by simpa using le_of_lt (not_le.mp hs)⟩
  simp [static_cast_int, hr, htr]

theorem update_L_floor {G C : Type} (pf : Platform) (k : unit_metric_hmc G C)
    (he : 0 < k._epsilon) (hT : 0 < k._T)
    (hfit : machine_quotient k._T k._epsilon < (INT_MAX : ℚ) + 1) :
    L_is_floor (k._update_L pf) := by
  have h := static_cast_int_of_range pf (ne_of_gt he)
    (machine_quotient_nonneg (le_of_lt (div_pos hT he))) hfit
  simp [L_is_floor, unit_metric_hmc._update_L, h]

theorem apply_keeps_floor {G C : Type} (pf : Platform) (c : setter_call)
    (k : unit_metric_hmc G C) (he : 0 < k._epsilon) (hT : 0 < k._T) (hv : c.valid)
    (hf : c.fits k) :
    c.leaves (c.apply pf k) ∧ 0 < (c.apply pf k)._epsilon ∧ 0 < (c.apply pf k)._T := by
  cases c with
  | stepsize_and_T e t =>
    obtain ⟨h1, h2⟩ := hv
    exact ⟨update_L_floor pf _ h1 h2 hf, h1, h2⟩
  | stepsize_and_L e l =>
    obtain ⟨h1, -, -⟩ := hv
    exact ⟨⟨rfl, rfl, rfl⟩, h1, lt_of_lt_of_le (by positivity) hf.1⟩
  | T t =>
    exact ⟨update_L_floor pf _ he hv hf, he, hv⟩
  | stepsize e =>
    exact ⟨update_L_floor pf _ hv hT hf, hv, hT⟩

/-! ## Auxiliary facts: the product `0.1 * 43` -/

theorem is_double_tenth : is_double double_tenth := by
  have h := is_double_int_mul_zpow 3602879701896397 (-55) (by norm_num)
  have e : ((3602879701896397 : ℤ) : ℚ) * 2 ^ (-55 : ℤ) = double_tenth := by
    norm_num [double_tenth]
  rwa [e] at h

theorem is_double_forty_three : is_double 43 := by
  have h := is_double_intCast 43 (by norm_num)
  simpa using h

theorem is_double_one : is_double 1 := by
  have h := is_double_intCast 1 (by norm_num)
  simpa using h

theorem is_double_three_tenths : is_double double_three_tenths := by
  have h := is_double_int_mul_zpow 5404319552844595 (-54) (by norm_num)
  have e : ((5404319552844595 : ℤ) : ℚ) * 2 ^ (-54 : ℤ) = double_three_tenths := by
    norm_num [double_three_tenths]
  rwa [e] at h

/-- The quotient `1 / 0.1` of the constructor rounds to `10`. -/
theorem quotient_one_tenth : machine_quotient 1 double_tenth = 10 := by
  unfold machine_quotient
  rw [if_pos ⟨is_double_one, is_double_tenth⟩]
  have h1 : (2 : ℚ) ^ (3 : ℤ) ≤ |1 / double_tenth| := by
    rw [abs_of_pos (by norm_num [double_tenth])]
    norm_num [double_tenth]
  have h2 : |1 / double_tenth| < (2 : ℚ) ^ ((3 : ℤ) + 1) := by
    rw [abs_of_pos (by norm_num [double_tenth])]
    norm_num [double_tenth]
  rw [round64_of_binade h1 h2]
  have h3 : round_half_even (1 / double_tenth / 2 ^ ((3 : ℤ) - 52)) = 5629499534213120 := by
    apply round_half_even_eq
    rw [abs_lt]
    constructor <;> norm_num [double_tenth]
  rw [h3]
  norm_num

/-- The quotient `0.3 / 0.1` rounds to `3 - 2 ^ -51`. -/
theorem quotient_three_tenths_tenth :
    machine_quotient double_three_tenths double_tenth =
      6755399441055743 / 2251799813685248 := by
  unfold machine_quotient
  rw [if_pos ⟨is_double_three_tenths, is_double_tenth⟩]
  have h1 : (2 : ℚ) ^ (1 : ℤ) ≤ |double_three_tenths / double_tenth| := by
    rw [abs_of_pos (by norm_num [double_tenth, double_three_tenths])]
    norm_num [double_tenth, double_three_tenths]
  have h2 : |double_three_tenths / double_tenth| < (2 : ℚ) ^ ((1 : ℤ) + 1) := by
    rw [abs_of_pos (by norm_num [double_tenth, double_three_tenths])]
    norm_num [double_tenth, double_three_tenths]
  rw [round64_of_binade h1 h2]
  have h3 : round_half_even (double_three_tenths / double_tenth / 2 ^ ((1 : ℤ) - 52)) =
      6755399441055743 := by
    apply round_half_even_eq
    rw [abs_lt]
    constructor <;> norm_num [double_tenth, double_three_tenths]
  rw [h3]
  norm_num

/-- The conversion at binary64 operands: `static_cast<int>(1 / 0.1)` is 10 and
`static_cast<int>(0.3 / 0.1)` is 2, on every machine. -/
theorem static_cast_int_binary64 (pf : Platform) :
    static_cast_int pf 1 double_tenth = 10 ∧
      static_cast_int pf double_three_tenths double_tenth = 2 := by
  constructor
  · rw [static_cast_int_of_range pf (by norm_num [double_tenth])
      (by rw [quotient_one_tenth]; norm_num)
      (by rw [quotient_one_tenth]; norm_num [INT_MAX]), quotient_one_tenth]
    exact Int.floor_intCast 10
  · rw [static_cast_int_of_range pf (by norm_num [double_tenth])
      (by rw [quotient_three_tenths_tenth]; norm_num)
      (by rw [quotient_three_tenths_tenth]; norm_num [INT_MAX]), quotient_three_tenths_tenth,
      Int.floor_eq_iff]
    constructor <;> norm_num

theorem product_tenth_forty_three :
    machine_product double_tenth 43 = 4841369599423283 / 1125899906842624 := by
  unfold machine_product
  rw [if_pos ⟨is_double_tenth, is_double_forty_three⟩]
  have h1 : (2 : ℚ) ^ (2 : ℤ) ≤ |double_tenth * 43| := by
    rw [abs_of_pos (by norm_num [double_tenth])]
    norm_num [double_tenth]
  have h2 : |double_tenth * 43| < (2 : ℚ) ^ ((2 : ℤ) + 1) := by
    rw [abs_of_pos (by norm_num [double_tenth])]
    norm_num [double_tenth]
  rw [round64_of_binade h1 h2]
  have h3 : round_half_even (double_tenth * 43 / 2 ^ ((2 : ℤ) - 52)) = 4841369599423283 := by
    apply round_half_even_eq
    rw [abs_lt]
    constructor <;> norm_num [double_tenth]
  rw [h3]
  norm_num

theorem quotient_tenth_forty_three :
    machine_quotient (4841369599423283 / 1125899906842624) double_tenth =
      6051711999279103 / 140737488355328 := by
  have hd : is_double (4841369599423283 / 1125899906842624) := by
    have h := is_double_int_mul_zpow 4841369599423283 (-50) (by norm_num)
    have e : ((4841369599423283 : ℤ) : ℚ) * 2 ^ (-50 : ℤ) =
        4841369599423283 / 1125899906842624 := by norm_num
    rwa [e] at h
  unfold machine_quotient
  rw [if_pos ⟨hd, is_double_tenth⟩]
  have h1 : (2 : ℚ) ^ (5 : ℤ) ≤ |4841369599423283 / 1125899906842624 / double_tenth| := by
    rw [abs_of_pos (by norm_num [double_tenth])]
    norm_num [double_tenth]
  have h2 : |4841369599423283 / 1125899906842624 / double_tenth| <
      (2 : ℚ) ^ ((5 : ℤ) + 1) := by
    rw [abs_of_pos (by norm_num [double_tenth])]
    norm_num [double_tenth]
  rw [round64_of_binade h1 h2]
  have h3 : round_half_even
      (4841369599423283 / 1125899906842624 / double_tenth / 2 ^ ((5 : ℤ) - 52)) =
        6051711999279103 := by
    apply round_half_even_eq
    rw [abs_lt]
    constructor <;> norm_num [double_tenth]
  rw [h3]
  norm_num

/-! ## C1: the invariant `L == floor(T / epsilon)` under setter calls -/

/-- C1, as stated, fails, in two ways. On every machine, the valid call
`set_stepsize_and_T(1, 2147483648)` on a freshly constructed kernel leaves a
triple with `L != floor(T / epsilon)`, because no `int` holds `2147483648`.
And the valid call `set_stepsize_and_L(0.1, 43)`, with `0.1` the binary64 value,
leaves `L = 43` next to a rounded product `T` for which the machine quotient
`T / epsilon` has floor 42. -/
theorem set_stepsize_and_T_breaks_floor :
    ((setter_call.stepsize_and_T 1 2147483648).valid ∧
      ¬ ∃ pf : Platform, L_is_floor
        ((unit_metric_hmc.new pf () ()).set_stepsize_and_T pf 1 2147483648)) ∧
    ((setter_call.stepsize_and_L double_tenth 43).valid ∧ is_double double_tenth ∧
      ((unit_metric_hmc.new indefinite () ()).set_stepsize_and_L double_tenth 43)._L = 43 ∧
      ⌊machine_quotient
          ((unit_metric_hmc.new indefinite () ()).set_stepsize_and_L double_tenth 43)._T
          ((unit_metric_hmc.new indefinite () ()).set_stepsize_and_L double_tenth 43)._epsilon⌋
        = 42 ∧
      ¬ L_is_floor ((unit_metric_hmc.new indefinite () ()).set_stepsize_and_L double_tenth 43))
    := by
  have hq : machine_quotient 2147483648 1 = 2147483648 := by
    have hd : is_double ((2147483648 : ℚ) / 1) := by
      have h := is_double_intCast 2147483648 (by norm_num)
      simpa using h
    rw [machine_quotient_of_double hd, div_one]
  have hfl : ⌊machine_quotient
      ((unit_metric_hmc.new indefinite () ()).set_stepsize_and_L double_tenth 43)._T
      ((unit_metric_hmc.new indefinite () ()).set_stepsize_and_L double_tenth 43)._epsilon⌋
        = 42 := by
    show ⌊machine_quotient (machine_product double_tenth 43) double_tenth⌋ = 42
    rw [product_tenth_forty_three, quotient_tenth_forty_three, Int.floor_eq_iff]
    constructor <;> norm_num
  refine ⟨⟨by simp [setter_call.valid], ?_⟩,
    ⟨by norm_num [double_tenth], by norm_num, 43, by norm_num⟩, is_double_tenth, rfl, hfl, ?_⟩
  · rintro ⟨pf, h⟩
    have hr : ¬ representable 2147483648 1 := by
      simp [representable, INT_MAX, hq]
      intro _
      norm_num
    have hle := (pf.is_int 2147483648 1).2
    simp only [L_is_floor, unit_metric_hmc.set_stepsize_and_T, unit_metric_hmc._update_L,
      static_cast_int, if_neg hr, hq] at h
    have h2 : (⌊(2147483648 : ℚ)⌋ : ℤ) = 2147483648 := by
      have : (2147483648 : ℚ) = ((2147483648 : ℤ) : ℚ) := by norm_num
      rw [this, Int.floor_intCast]
    rw [h2] at h
    have h3 : pf.unrepresentable 2147483648 1 = 2147483648 := by exact_mod_cast h
    rw [h3] at hle
    simp [INT_MAX] at hle
  · intro h
    rw [L_is_floor, hfl] at h
    have h43 : ((unit_metric_hmc.new indefinite () ()).set_stepsize_and_L double_tenth 43)._L
        = 43 := rfl
    rw [h43] at h
    norm_num at h

/-- C1, amended: starting from a kernel with `epsilon > 0` and `T > 0` (as the
constructor leaves it), for every sequence of setter calls with valid
arguments in which each quotient handed to `static_cast<int>` is below
`INT_MAX + 1` and each product stored by `set_stepsize_and_L` is in the normal
range of binary64: after each call of `set_stepsize_and_T`, `set_T` and
`set_stepsize` the triple satisfies `L == floor(T / epsilon)`, the quotient
being the one the machine computes; after `set_stepsize_and_L(e, l)` the triple
is `e`, `l` and the rounded product of the two. -/
theorem setters_keep_L_floor {G C : Type} (pf : Platform) (calls : List setter_call)
    (k : unit_metric_hmc G C) (he : 0 < k._epsilon) (hT : 0 < k._T)
    (hvalid : ∀ c ∈ calls, c.valid) (hfits : fits_throughout pf calls k) :
    ∀ p ∈ List.zip calls (history pf calls k), p.1.leaves p.2 := by
  induction calls generalizing k with
  | nil => intro p h; simp [history] at h
  | cons c cs ih =>
    obtain ⟨hf, hrest⟩ := hfits
    obtain ⟨h1, h2, h3⟩ := apply_keeps_floor pf c k he hT (hvalid c (by simp)) hf
    intro p hp
    simp only [history, List.zip_cons_cons, List.mem_cons] at hp
    rcases hp with rfl | hp
    · exact h1
    · exact ih (c.apply pf k) h2 h3 (fun c1 hc1 => hvalid c1 (by simp [hc1])) hrest p hp

theorem is_double_two : is_double 2 := by
  have h := is_double_intCast 2 (by norm_num)
  simpa using h

theorem is_double_three_quarters : is_double (3 / 4) := by
  have h := is_double_int_mul_zpow 3 (-2) (by norm_num)
  have e : ((3 : ℤ) : ℚ) * 2 ^ (-2 : ℤ) = 3 / 4 := by norm_num
  rwa [e] at h

/-- Witness for C1: two valid calls on a freshly constructed kernel; after the
first, `L == floor(T / epsilon)`. -/
theorem setters_keep_L_floor_witness :
    L_is_floor ((unit_metric_hmc.new indefinite () ()).set_stepsize_and_T indefinite (1 / 2) 1) :=
  setters_keep_L_floor indefinite
    [setter_call.stepsize_and_T (1 / 2) 1, setter_call.stepsize_and_L (1 / 4) 3]
    (unit_metric_hmc.new indefinite () ())
    (by
      show 0 < double_tenth
      norm_num [double_tenth])
    (by simp [unit_metric_hmc.new, unit_metric_hmc._update_L])
    (by
      intro c hc
      simp only [List.mem_cons, List.mem_singleton, List.not_mem_nil, or_false] at hc
      rcases hc with rfl | rfl
      · simp [setter_call.valid]
      · exact ⟨by norm_num, by norm_num, 3, by norm_num⟩)
    (by
      have hq : machine_quotient 1 (1 / 2) = 2 := by
        have hd : is_double ((1 : ℚ) / (1 / 2)) := by
          have h := is_double_two
          norm_num
          exact h
        rw [machine_quotient_of_double hd]
        norm_num
      have hp : machine_product (1 / 4) 3 = 3 / 4 := by
        have hd : is_double ((1 / 4 : ℚ) * 3) := by
          have h := is_double_three_quarters
          norm_num
          exact h
        rw [machine_product_of_double hd]
        norm_num
      refine ⟨?_, ⟨?_, ?_⟩, trivial⟩
      · show machine_quotient 1 (1 / 2) < (INT_MAX : ℚ) + 1
        rw [hq]
        norm_num [INT_MAX]
      · show (2 : ℚ) ^ (-1022 : ℤ) ≤ machine_product (1 / 4) 3
        rw [hp]
        norm_num
      · show machine_product (1 / 4) 3 < 2 ^ (1024 : ℤ)
        rw [hp]
        norm_num)
    (setter_call.stepsize_and_T (1 / 2) 1,
      (unit_metric_hmc.new indefinite () ()).set_stepsize_and_T indefinite (1 / 2) 1)
    (by simp [history, setter_call.apply])

/-! ## Auxiliary facts: the trajectory loop -/

theorem trajectory_eq_iterate {W : Type} (body : W → W) (L : ℚ) :
    ∀ (d i : ℕ) (w : W), ⌈L⌉₊ - i = d → trajectory body L i w = body^[d] w := by
  intro d
  induction d with
  | zero =>
    intro i w h
    have hi : ¬ (i : ℚ) < L := fun hlt => by
      have := Nat.lt_ceil.mpr hlt
      omega
    rw [trajectory, if_neg hi]
    rfl
  | succ d ih =>
    intro i w h
    have hi : (i : ℚ) < L := Nat.lt_ceil.mp (by omega)
    rw [trajectory, if_pos hi, ih (i + 1) (body w) (by omega)]
    rfl

theorem int_succ_natCast (i : ℕ) (h : (i : ℤ) < INT_MAX) : int_succ i = ((i + 1 : ℕ) : ℤ) := by
  unfold int_succ INT_MIN
  unfold INT_MAX at h
  push_cast
  omega

theorem int_succ_range (i : ℤ) : INT_MIN ≤ int_succ i ∧ int_succ i ≤ INT_MAX := by
  unfold int_succ INT_MIN INT_MAX
  omega

theorem ceil_le_int_max {L : ℚ} (hL : L ≤ (INT_MAX : ℚ)) : ⌈L⌉₊ ≤ 2147483647 := by
  apply Nat.ceil_le.mpr
  refine le_trans hL (le_of_eq ?_)
  norm_num [INT_MAX]

theorem trajectory_int_iterate {W : Type} (body : W → W) {L : ℚ} (hL : L ≤ (INT_MAX : ℚ)) :
    ∀ (d i : ℕ) (w : W) (fuel : ℕ), ⌈L⌉₊ - i = d → d < fuel →
      trajectory_int body L fuel (i : ℤ) w = some (body^[d] w) := by
  have hc := ceil_le_int_max hL
  intro d
  induction d with
  | zero =>
    intro i w fuel h hf
    have hi : ¬ (((i : ℤ) : ℚ)) < L := fun hlt => by
      have := Nat.lt_ceil.mpr (show (i : ℚ) < L by simpa using hlt)
      omega
    obtain ⟨f, rfl⟩ : ∃ f, fuel = f + 1 := ⟨fuel - 1, by omega⟩
    rw [trajectory_int, if_neg hi]
    rfl
  | succ d ih =>
    intro i w fuel h hf
    have hlt : i < ⌈L⌉₊ := by omega
    have hi : (((i : ℤ) : ℚ)) < L := by
      have := Nat.lt_ceil.mp hlt
      simpa using this
    obtain ⟨f, rfl⟩ : ∃ f, fuel = f + 1 := ⟨fuel - 1, by omega⟩
    have hs : int_succ i = ((i + 1 : ℕ) : ℤ) :=
      int_succ_natCast i (by unfold INT_MAX; omega)
    rw [trajectory_int, if_pos hi, hs, ih (i + 1) (body w) f (by omega) (by omega)]
    rfl

/-- With `_L <= INT_MAX` the loop exits, after `ceil(_L)` applications of the
body when `_L > 0` and none otherwise, in the state `trajectory` gives. -/
theorem trajectory_int_exits {W : Type} (body : W → W) {L : ℚ} (hL : L ≤ (INT_MAX : ℚ))
    (w : W) (fuel : ℕ) (hf : ⌈L⌉₊ < fuel) :
    trajectory_int body L fuel 0 w = some (body^[⌈L⌉₊] w) ∧
      trajectory body L 0 w = body^[⌈L⌉₊] w := by
  have h := trajectory_int_iterate body hL ⌈L⌉₊ 0 w fuel (Nat.sub_zero _) hf
  exact ⟨by simpa using h, trajectory_eq_iterate body L ⌈L⌉₊ 0 w (Nat.sub_zero _)⟩

/-- With `_L > INT_MAX` the guard holds for every value of the counter and the
loop never exits. -/
theorem trajectory_int_never_exits {W : Type} (body : W → W) {L : ℚ}
    (hL : (INT_MAX : ℚ) < L) :
    ∀ (fuel : ℕ) (i : ℤ) (w : W), i ≤ INT_MAX → trajectory_int body L fuel i w = none := by
  intro fuel
  induction fuel with
  | zero => intro i w _; rfl
  | succ f ih =>
    intro i w hi
    have hg : (i : ℚ) < L := lt_of_le_of_lt (by exact_mod_cast hi) hL
    rw [trajectory_int, if_pos hg]
    exact ih (int_succ i) (body w) (int_succ_range i).2

/-! ## Auxiliary facts about `sample` -/

theorem trajectory_ceil {W : Type} (body : W → W) (L : ℚ) (w : W) :
    trajectory body L 0 w = body^[⌈L⌉₊] w :=
  trajectory_eq_iterate body L ⌈L⌉₊ 0 w (Nat.sub_zero _)

theorem draw_unit_gaus_spec {G C : Type} (B : hmc_base G C) (n : ℕ) (g : G) :
    (draw_unit_gaus B n g).1.length = n ∧
      (draw_unit_gaus B n g).2 = (fun s => (B._rand_unit_gaus s).2)^[n] g := by
  induction n generalizing g with
  | zero => simp [draw_unit_gaus]
  | succ n ih =>
    obtain ⟨h1, h2⟩ := ih (B._rand_unit_gaus g).2
    simp [draw_unit_gaus, h1, h2]

theorem sample_kernel_triple {G C : Type} (B : hmc_base G C) (k : unit_metric_hmc G C)
    (q : List ℚ) (r : List ℤ) :
    (k.sample B q r).kernel._epsilon = k._epsilon ∧ (k.sample B q r).kernel._L = k._L ∧
      (k.sample B q r).kernel._T = k._T := by
  simp only [unit_metric_hmc.sample]
  split_ifs <;> exact ⟨rfl, rfl, rfl⟩

theorem ceil_five_halves : ⌈(5 / 2 : ℚ)⌉₊ = 3 := by
  rw [Nat.ceil_eq_iff (by norm_num)]
  norm_num

theorem sample_kernel_coll {G C : Type} (B : hmc_base G C) (k : unit_metric_hmc G C)
    (q : List ℚ) (r : List ℤ) : (k.sample B q r).kernel.coll = (k.sample_end B q r).1 := by
  simp only [unit_metric_hmc.sample]
  split_ifs <;> rfl

/-- The loop exits in no other state than the one `trajectory` gives. -/
theorem trajectory_int_some {W : Type} (body : W → W) (L : ℚ) (fuel : ℕ) (w z : W)
    (h : trajectory_int body L fuel 0 w = some z) : z = trajectory body L 0 w := by
  by_cases hL : L ≤ (INT_MAX : ℚ)
  · have hc := ceil_le_int_max hL
    have key : ∀ (f i : ℕ) (v : W), i ≤ ⌈L⌉₊ → trajectory_int body L f (i : ℤ) v = some z →
        z = body^[⌈L⌉₊ - i] v := by
      intro f
      induction f with
      | zero =>
        intro i v _ hv
        simp [trajectory_int] at hv
      | succ f ih =>
        intro i v hi hv
        by_cases hg : (((i : ℤ) : ℚ)) < L
        · have hlt : i < ⌈L⌉₊ := Nat.lt_ceil.mpr (by simpa using hg)
          have hs : int_succ i = ((i + 1 : ℕ) : ℤ) :=
            int_succ_natCast i (by unfold INT_MAX; omega)
          rw [trajectory_int, if_pos hg, hs] at hv
          have h1 := ih (i + 1) (body v) hlt hv
          have h2 : ⌈L⌉₊ - i = (⌈L⌉₊ - (i + 1)) + 1 := by omega
          rw [h1, h2, Function.iterate_succ_apply]
        · have hge : ⌈L⌉₊ ≤ i := by
            by_contra hn
            exact hg (by simpa using Nat.lt_ceil.mp (not_le.mp hn))
          rw [trajectory_int, if_neg hg] at hv
          have h2 : ⌈L⌉₊ - i = 0 := by omega
          rw [h2]
          exact (Option.some.inj hv).symm
    have h1 := key fuel 0 w (Nat.zero_le _) (by simpa using h)
    rw [h1, trajectory_eq_iterate body L ⌈L⌉₊ 0 w (Nat.sub_zero _), Nat.sub_zero]
  · rw [trajectory_int_never_exits body (not_le.mp hL) fuel 0 w (by decide)] at h
    simp at h

/-- With `_L <= INT_MAX` the call of `sample` returns, and returns what
`sample` gives. -/
theorem sample_run_returns {G C : Type} (B : hmc_base G C) (k : unit_metric_hmc G C)
    (q : List ℚ) (r : List ℤ) (hL : k._L ≤ (INT_MAX : ℚ)) (fuel : ℕ) (hf : ⌈k._L⌉₊ < fuel) :
    k.sample_run B q r fuel = some (k.sample B q r) := by
  have h1 : k.sample_loop B q r fuel = some (k.sample_end B q r) := by
    have h := trajectory_int_exits (fun w => B.evolve w k._epsilon) hL
      (k.sample_start B q r) fuel hf
    rw [unit_metric_hmc.sample_loop, unit_metric_hmc.sample_end, h.1, h.2]
  simp only [unit_metric_hmc.sample_run, h1, unit_metric_hmc.sample,
    unit_metric_hmc.sample_acceptProb]
  split_ifs <;> rfl

/-- With `_L > INT_MAX` the call of `sample` does not return. -/
theorem sample_run_never_returns {G C : Type} (B : hmc_base G C) (k : unit_metric_hmc G C)
    (q : List ℚ) (r : List ℤ) (hL : (INT_MAX : ℚ) < k._L) (fuel : ℕ) :
    k.sample_run B q r fuel = none := by
  have h1 : k.sample_loop B q r fuel = none :=
    trajectory_int_never_exits _ hL fuel 0 _ (by decide)
  simp only [unit_metric_hmc.sample_run, h1]

/-- Whatever a call of `sample` returns is what `sample` gives. -/
theorem sample_run_some {G C : Type} (B : hmc_base G C) (k : unit_metric_hmc G C)
    (q : List ℚ) (r : List ℤ) (fuel : ℕ) (res : sample_result (unit_metric_hmc G C))
    (h : k.sample_run B q r fuel = some res) : res = k.sample B q r := by
  by_cases hL : k._L ≤ (INT_MAX : ℚ)
  · cases hz : k.sample_loop B q r fuel with
    | none => simp [unit_metric_hmc.sample_run, hz] at h
    | some z =>
      have hz2 : z = k.sample_end B q r :=
        trajectory_int_some (fun w => B.evolve w k._epsilon) k._L fuel _ z hz
      subst hz2
      simp only [unit_metric_hmc.sample_run, hz] at h
      simp only [unit_metric_hmc.sample, unit_metric_hmc.sample_acceptProb]
      split_ifs at h ⊢ <;> exact (Option.some.inj h).symm
  · rw [sample_run_never_returns B k q r (not_le.mp hL) fuel] at h
    simp at h

theorem sample_accepts_of_draw_below {G C : Type} (B : hmc_base G C)
    (k : unit_metric_hmc G C) (q : List ℚ) (r : List ℤ)
    (h : (B._rand_uniform (k.sample_u B q).2).1 < k.sample_acceptProb B q r) :
    (k.sample B q r).ret = 1 ∧ (k.sample B q r).q = (k.sample_end B q r).2.q := by
  simp only [unit_metric_hmc.sample]
  split_ifs <;> exact ⟨rfl, rfl⟩

/-! ## C2: the Metropolis test -/

/-- C3, as stated, fails: `set_stepsize_and_L(1, 3000000000)` leaves the
positive integer `L = 3000000000`, above `INT_MAX`; the `int` counter of the
trajectory loop never reaches it, so the loop of `sample` does not exit,
whatever the number of steps it is given. -/
theorem sample_loop_never_exits :
    ((kernel_with double_tenth 10 1).set_stepsize_and_L 1 3000000000)._L =
        ((3000000000 : ℕ) : ℚ) ∧
      ¬ ∃ fuel : ℕ,
        (((kernel_with double_tenth 10 1).set_stepsize_and_L 1 3000000000).sample_loop
          (normal_target 1 (3 / 10)) [0] [] fuel).isSome = true := by
  refine ⟨by simp [unit_metric_hmc.set_stepsize_and_L], ?_⟩
  rintro ⟨fuel, h⟩
  have hL : (INT_MAX : ℚ) <
      ((kernel_with double_tenth 10 1).set_stepsize_and_L 1 3000000000)._L := by
    simp [unit_metric_hmc.set_stepsize_and_L, INT_MAX]
    norm_num
  rw [unit_metric_hmc.sample_loop,
    trajectory_int_never_exits _ hL fuel 0 _ (by decide)] at h
  simp at h

/-- C3, amended: for every configuration whose `L` is a non-negative integer
not above `INT_MAX`, the trajectory loop of `sample` exits after applying
`evolve`, each time with step size `epsilon`, exactly `L` times to the point
obtained after `sampleP` and `init`: the proposal is the `L`-fold iterate. -/
theorem sample_trajectory_steps {G C : Type} (B : hmc_base G C) (k : unit_metric_hmc G C)
    (q : List ℚ) (r : List ℤ) (n : ℕ) (hL : k._L = n) (hmax : (n : ℤ) ≤ INT_MAX) :
    (∀ fuel : ℕ, n < fuel →
        k.sample_loop B q r fuel =
          some ((fun w => B.evolve w k._epsilon)^[n] (k.sample_start B q r))) ∧
      k.sample_end B q r = (fun w => B.evolve w k._epsilon)^[n] (k.sample_start B q r) ∧
      (k.sample B q r).kernel.coll = (k.sample_end B q r).1 := by
  have hle : k._L ≤ (INT_MAX : ℚ) := by
    rw [hL]
    exact_mod_cast hmax
  have hceil : ⌈k._L⌉₊ = n := by rw [hL, Nat.ceil_natCast]
  refine ⟨fun fuel hf => ?_, ?_, sample_kernel_coll B k q r⟩
  · have h := (trajectory_int_exits (fun w => B.evolve w k._epsilon) hle
      (k.sample_start B q r) fuel (by rw [hceil]; exact hf)).1
    rw [hceil] at h
    exact h
  · have h := (trajectory_int_exits (fun w => B.evolve w k._epsilon) hle
      (k.sample_start B q r) (n + 1) (by rw [hceil]; exact Nat.lt_succ_self n)).2
    rw [hceil] at h
    exact h

/-- Witness for C3: with `L = 2` the loop exits within three evaluations of the
guard, after two steps. -/
theorem sample_trajectory_steps_witness :
    (kernel_with (1 / 2) 2 1).sample_loop (normal_target 1 (3 / 10)) [0] [] 3 =
      some ((fun w => (normal_target 1 (3 / 10)).evolve w (kernel_with (1 / 2) 2 1)._epsilon)^[2]
        ((kernel_with (1 / 2) 2 1).sample_start (normal_target 1 (3 / 10)) [0] [])) :=
  (sample_trajectory_steps (normal_target 1 (3 / 10)) (kernel_with (1 / 2) 2 1) [0] [] 2
    (by simp [kernel_with]) (by decide)).1 3 (by decide)

/-! ## C4: a trajectory that does not raise the energy is accepted -/

/-- C4: when `exp` is at least 1 on non-negative arguments (as the exponential
is), the final energy of the trajectory satisfies `H_final <= H0` and the
uniform draw lies in `[0, 1)`, `sample` returns 1 and overwrites the position
with the final position of the trajectory. -/
theorem sample_accepts_of_energy_drop {G C : Type} (B : hmc_base G C)
    (k : unit_metric_hmc G C) (q : List ℚ) (r : List ℤ)
    (hexp : ∀ x : ℚ, 0 ≤ x → 1 ≤ B.exp x)
    (hH : B.H (k.sample_end B q r) ≤ k.sample_H0 B q r)
    (hu : 0 ≤ (B._rand_uniform (k.sample_u B q).2).1 ∧
      (B._rand_uniform (k.sample_u B q).2).1 < 1) :
    (k.sample B q r).ret = 1 ∧ (k.sample B q r).q = (k.sample_end B q r).2.q := by
  have h1 : 1 ≤ k.sample_acceptProb B q r := hexp _ (sub_nonneg.mpr hH)
  have h2 : (B._rand_uniform (k.sample_u B q).2).1 < k.sample_acceptProb B q r :=
    lt_of_lt_of_le hu.2 h1
  simp only [unit_metric_hmc.sample]
  split_ifs <;> exact ⟨rfl, rfl⟩

/-- Witness for C4: with `epsilon = 1`, `L = 1`, `T = 1`, one leapfrog step
from `q = 1` with momentum draw 0 lowers the energy from `1/2` to `13/32`. -/
theorem sample_accepts_of_energy_drop_witness :
    ((kernel_with 1 1 1).sample (normal_target 0 (3 / 10)) [1] []).ret = 1 ∧
      ((kernel_with 1 1 1).sample (normal_target 0 (3 / 10)) [1] []).q =
        ((kernel_with 1 1 1).sample_end (normal_target 0 (3 / 10)) [1] []).2.q :=
  sample_accepts_of_energy_drop (normal_target 0 (3 / 10)) (kernel_with 1 1 1) [1] []
    (by intro x hx; simpa [normal_target] using hx)
    (by
      simp [unit_metric_hmc.sample_H0, unit_metric_hmc.sample_end, unit_metric_hmc.sample_start,
        unit_metric_hmc.sample_u, unit_metric_hmc.sample_point, ps_point.new, kernel_with,
        draw_unit_gaus, normal_target, leapfrog, trajectory_ceil]
      norm_num)
    (by simp [normal_target]; norm_num)

/-! ## C5: consumption of the random stream -/

/-- C7: on the same position, discrete state, configuration and stream,
`adapt_unit_metric_hmc::sample` returns the value returned by
`unit_metric_hmc::sample` and leaves the same position, discrete state, stream
and collaborator state; the adapter only sees the results of the base
transition. -/
theorem adapt_sample_refines_sample {G C A : Type} (pf : Platform) (B : hmc_base G C)
    (_learn_stepsize : A → ℚ → ℚ → A × ℚ) (k : adapt_unit_metric_hmc G C A) (q : List ℚ)
    (r : List ℤ) :
    (k.sample pf B _learn_stepsize q r).ret = (k.base.sample B q r).ret ∧
      (k.sample pf B _learn_stepsize q r).q = (k.base.sample B q r).q ∧
      (k.sample pf B _learn_stepsize q r).r = (k.base.sample B q r).r ∧
      (k.sample pf B _learn_stepsize q r).kernel.base.rng = (k.base.sample B q r).kernel.rng ∧
      (k.sample pf B _learn_stepsize q r).kernel.base.coll = (k.base.sample B q r).kernel.coll :=
  ⟨rfl, rfl, rfl, rfl, rfl⟩

/-! ## C8: what the setters do with unusable arguments -/

/-- C8, as stated, fails: the call `set_stepsize_and_T(2, 1)`, which has
`e > t > 0`, completes and leaves the kernel with `epsilon = 2`, `T = 1` and
`L = 0`. -/
theorem set_stepsize_and_T_leaves_zero_L :
    ((unit_metric_hmc.new indefinite () ()).set_stepsize_and_T indefinite 2 1)._epsilon = 2 ∧
      ((unit_metric_hmc.new indefinite () ()).set_stepsize_and_T indefinite 2 1)._T = 1 ∧
      ((unit_metric_hmc.new indefinite () ()).set_stepsize_and_T indefinite 2 1)._L = 0 := by
  refine ⟨rfl, rfl, ?_⟩
  have hz : static_cast_int indefinite 1 2 = 0 :=
    static_cast_int_zero indefinite (by norm_num [abs_lt])
  simp [unit_metric_hmc.set_stepsize_and_T, unit_metric_hmc._update_L, hz]

/-- C8, amended: the setters signal nothing and store their arguments as
given; `set_stepsize_and_T(e, t)` with `|t| < |e|`, in particular with
`e > t > 0`, with a negative `e`, or with a non-positive `t`, completes and
leaves the kernel with `epsilon = e`, `T = t` and `L = 0`. -/
theorem set_stepsize_and_T_short_time {G C : Type} (pf : Platform) (e t : ℚ)
    (k : unit_metric_hmc G C) (h : |t| < |e|) :
    k.set_stepsize_and_T pf e t = { k with _epsilon := e, _T := t, _L := 0 } := by
  simp [unit_metric_hmc.set_stepsize_and_T, unit_metric_hmc._update_L,
    static_cast_int_zero pf h]

/-- Witness for C8: a negative `T` is stored, with `L = 0`. -/
theorem set_stepsize_and_T_short_time_witness :
    |(-3 : ℚ)| < |(4 : ℚ)| ∧
      (kernel_with double_tenth 10 1).set_stepsize_and_T indefinite 4 (-3) =
        { kernel_with double_tenth 10 1 with _epsilon := 4, _T := -3, _L := 0 } :=
  ⟨by norm_num [abs_lt],
    set_stepsize_and_T_short_time indefinite 4 (-3) (kernel_with double_tenth 10 1)
      (by norm_num [abs_lt])⟩

/-! ## C9: the discrete state -/

/-- C9: `sample` leaves the discrete state `r` as supplied, whether the
proposal is accepted or rejected; of the two caller buffers only `q` can
change, and it changes only on acceptance. -/
theorem sample_keeps_discrete_state {G C : Type} (B : hmc_base G C)
    (k : unit_metric_hmc G C) (q : List ℚ) (r : List ℤ) :
    (k.sample B q r).r = r ∧
      ((k.sample B q r).ret = 1 ∨ ((k.sample B q r).ret = 0 ∧ (k.sample B q r).q = q)) := by
  simp only [unit_metric_hmc.sample]
  split_ifs <;> simp

/-! ## C10: `set_stepsize_and_L` -/

/-- C11: `set_T(t)` leaves `epsilon` unchanged, stores `T = t` and recomputes
`L` from the existing `epsilon`; `set_stepsize(e)` leaves `T` unchanged, stores
`epsilon = e` and recomputes `L` from the existing `T`; the random stream and
the collaborators, the rest of the kernel state, are untouched by both. -/
theorem single_setters_frame {G C : Type} (pf : Platform) (x : ℚ)
    (k : unit_metric_hmc G C) :
    k.set_T pf x =
        { _epsilon := k._epsilon, _L := (static_cast_int pf x k._epsilon : ℤ), _T := x,
          rng := k.rng, coll := k.coll } ∧
      k.set_stepsize pf x =
        { _epsilon := x, _L := (static_cast_int pf k._T x : ℤ), _T := k._T,
          rng := k.rng, coll := k.coll } :=
  ⟨rfl, rfl⟩

/-! ## C13: `sample` and the configuration -/

/-- C13: `unit_metric_hmc::sample` leaves `epsilon`, `L` and `T` as they
were, and every step of its trajectory uses that `epsilon` and that `L`; in the
adaptive variant the triple after the call is the one that `_learn_stepsize`
and `_update_L` produce from the unchanged triple once the transition is
over. -/
theorem sample_keeps_configuration {G C A : Type} (pf : Platform) (B : hmc_base G C)
    (_learn_stepsize : A → ℚ → ℚ → A × ℚ) (k : adapt_unit_metric_hmc G C A) (q : List ℚ)
    (r : List ℤ) :
    (k.base.sample B q r).kernel._epsilon = k.base._epsilon ∧
      (k.base.sample B q r).kernel._L = k.base._L ∧
      (k.base.sample B q r).kernel._T = k.base._T ∧
      k.base.sample_end B q r =
        trajectory (fun w => B.evolve w k.base._epsilon) k.base._L 0
          (k.base.sample_start B q r) ∧
      (k.sample pf B _learn_stepsize q r).kernel.base =
        unit_metric_hmc._update_L pf
          { (k.base.sample B q r).kernel with
            _epsilon := (_learn_stepsize k.adapter k.base._epsilon (k.base.sample B q r).ret).2 }
      := by
  obtain ⟨h1, h2, h3⟩ := sample_kernel_triple B k.base q r
  refine ⟨h1, h2, h3, rfl, ?_⟩
  simp [adapt_unit_metric_hmc.sample, h1]

/-! ## C19: the constructors -/

/-- C19: a freshly constructed `unit_metric_hmc` has `epsilon = 0.1` (the
binary64 value of the literal), `T = 1` and `L = 10`, so
`L == floor(T / epsilon)` and `L >= 1` hold before any setter is called; a
freshly constructed `adapt_unit_metric_hmc` holds the same triple. -/
theorem new_kernel_triple {G C A : Type} (pf : Platform) (rng : G) (coll : C) (a : A) :
    (unit_metric_hmc.new pf rng coll)._epsilon = double_tenth ∧
      (unit_metric_hmc.new pf rng coll)._T = 1 ∧
      (unit_metric_hmc.new pf rng coll)._L = 10 ∧
      L_is_floor (unit_metric_hmc.new pf rng coll) ∧
      1 ≤ (unit_metric_hmc.new pf rng coll)._L ∧
      (adapt_unit_metric_hmc.new pf rng coll a).base = unit_metric_hmc.new pf rng coll := by
  have hfl : ⌊machine_quotient 1 double_tenth⌋ = 10 := by
    rw [quotient_one_tenth]
    exact Int.floor_intCast 10
  have hL : (unit_metric_hmc.new pf rng coll)._L = 10 := by
    show ((static_cast_int pf 1 double_tenth : ℤ) : ℚ) = 10
    rw [(static_cast_int_binary64 pf).1]
    norm_num
  refine ⟨rfl, rfl, hL, ?_, ?_, rfl⟩
  · rw [L_is_floor, hL]
    show (10 : ℚ) = ((⌊machine_quotient 1 double_tenth⌋ : ℤ) : ℚ)
    rw [hfl]
    norm_num
  · rw [hL]; norm_num

/-! ## C20: the combined setter and the single-parameter setters -/

/-- C20: the kernel after `set_stepsize_and_T(e, t)` equals the kernel after
`set_stepsize(e)` followed by `set_T(t)` and the kernel after `set_T(t)`
followed by `set_stepsize(e)`, for every starting state and all `e`, `t`; and
each of the four setters, called twice with the same arguments, leaves what
one call leaves. -/
theorem setters_agree_and_idempotent {G C : Type} (pf : Platform) (e t l : ℚ)
    (k : unit_metric_hmc G C) :
    k.set_stepsize_and_T pf e t = (k.set_stepsize pf e).set_T pf t ∧
      k.set_stepsize_and_T pf e t = (k.set_T pf t).set_stepsize pf e ∧
      (k.set_stepsize_and_T pf e t).set_stepsize_and_T pf e t = k.set_stepsize_and_T pf e t ∧
      (k.set_stepsize_and_L e l).set_stepsize_and_L e l = k.set_stepsize_and_L e l ∧
      (k.set_T pf t).set_T pf t = k.set_T pf t ∧
      (k.set_stepsize pf e).set_stepsize pf e = k.set_stepsize pf e :=
  ⟨rfl, rfl, rfl, rfl, rfl, rfl⟩

/-! ## C12: the example scenario -/

theorem machine_quotient_two : machine_quotient 1 (1 / 2) = 2 := by
  have hd : is_double ((1 : ℚ) / (1 / 2)) := by
    have h := is_double_two
    norm_num
    exact h
  rw [machine_quotient_of_double hd]
  norm_num

theorem canonical_kernel_triple (pf : Platform) :
    (canonical_kernel pf)._epsilon = 1 / 2 ∧ (canonical_kernel pf)._L = 2 ∧
      (canonical_kernel pf)._T = 1 := by
  have hc : static_cast_int pf 1 (1 / 2) = 2 := by
    rw [static_cast_int_eq_floor pf (by norm_num) (by norm_num)
      (by norm_num [INT_MAX]), machine_quotient_two]
    have : (2 : ℚ) = ((2 : ℤ) : ℚ) := by norm_num
    rw [this, Int.floor_intCast]
  refine ⟨rfl, ?_, rfl⟩
  show ((static_cast_int pf 1 (1 / 2) : ℤ) : ℚ) = 2
  rw [hc]
  norm_num

theorem canonical_end (pf : Platform) (ex : ℚ → ℚ) :
    (canonical_kernel pf).sample_end (normal_target_exp ex 1 (3 / 10)) [0] [] =
      (2, { q := [7 / 8], p := [17 / 32], r := [] }) := by
  obtain ⟨h1, h2, -⟩ := canonical_kernel_triple pf
  have hceil : ⌈(2 : ℚ)⌉₊ = 2 := by
    rw [Nat.ceil_eq_iff (by norm_num)]
    norm_num
  simp only [unit_metric_hmc.sample_end, h1, h2, trajectory_ceil, hceil]
  simp [unit_metric_hmc.sample_start, unit_metric_hmc.sample_u, unit_metric_hmc.sample_point,
    ps_point.new, canonical_kernel, unit_metric_hmc.set_stepsize_and_T,
    unit_metric_hmc._update_L, unit_metric_hmc.new, draw_unit_gaus, normal_target_exp,
    normal_target, leapfrog]
  norm_num

/-- On finite energies `metropolis` is the acceptance test of `sample`. -/
theorem metropolis_agrees_with_sample {G C : Type} (B : hmc_base G C)
    (k : unit_metric_hmc G C) (q : List ℚ) (r : List ℤ) (ex : WithBot ℚ → ℚ)
    (hex : ∀ x : ℚ, ex (some x) = B.exp x) :
    metropolis ex B._rand_uniform (k.sample_H0 B q r) (some (B.H (k.sample_end B q r))) q
        (k.sample_end B q r).2.q (k.sample_u B q).2 =
      ((k.sample B q r).q, (k.sample B q r).ret, (k.sample B q r).kernel.rng) := by
  have h : ex (energy_drop (k.sample_H0 B q r) (some (B.H (k.sample_end B q r)))) =
      k.sample_acceptProb B q r := hex _
  simp only [metropolis, unit_metric_hmc.sample, h]
  split_ifs <;> rfl

/-- C14: when the initial energy `H0` is finite and the final energy of the
trajectory is `+infinity`, the difference `H0 - H_final` is `-infinity`; with
`exp(-infinity) = 0` for the library `exp`, the acceptance probability is 0
and, for every uniform draw in `[0, 1)`, the acceptance test of `sample`
rejects: the position is the one supplied and 0 is returned. -/
theorem sample_rejects_infinite_energy {G : Type} (ex : WithBot ℚ → ℚ)
    (rand_uniform : G → ℚ × G) (H0 : ℚ) (q zq : List ℚ) (g : G)
    (hex : ex ⊥ = 0) (hu : 0 ≤ (rand_uniform g).1 ∧ (rand_uniform g).1 < 1) :
    energy_drop H0 ⊤ = ⊥ ∧ ex (energy_drop H0 ⊤) = 0 ∧
      metropolis ex rand_uniform H0 ⊤ q zq g = (q, 0, (rand_uniform g).2) := by
  have hd : energy_drop H0 ⊤ = ⊥ := rfl
  have hp : ex (energy_drop H0 ⊤) = 0 := by rw [hd, hex]
  refine ⟨hd, hp, ?_⟩
  have h1 : ¬ ex (energy_drop H0 ⊤) > 1 := by rw [hp]; norm_num
  have h2 : ¬ (rand_uniform g).1 < ex (energy_drop H0 ⊤) := by
    rw [hp]
    exact not_lt.mpr hu.1
  simp only [metropolis]
  rw [if_neg h1, if_neg h2]

/-- Witness for C14: start `q = 0`, final position `7/8`, `H0 = 1/2`, uniform
draw `3/10`. -/
theorem sample_rejects_infinite_energy_witness :
    metropolis exp_lower (normal_target 1 (3 / 10))._rand_uniform (1 / 2) ⊤ [0] [7 / 8] 1 =
      ([0], 0, 2) :=
  (sample_rejects_infinite_energy exp_lower (normal_target 1 (3 / 10))._rand_uniform (1 / 2)
    [0] [7 / 8] 1 rfl (by simp [normal_target]; norm_num)).2.2

/-! ## C15: positions and discrete states of any length -/

theorem two_coordinates_end (pf : Platform) (ex : ℚ → ℚ) :
    (canonical_kernel pf).sample_end (normal_target_exp ex 1 (3 / 10)) [0, 0] [5, 6, 7] =
      (2, { q := [7 / 8, 7 / 8], p := [17 / 32, 17 / 32], r := [5, 6, 7] }) := by
  obtain ⟨h1, h2, -⟩ := canonical_kernel_triple pf
  have hceil : ⌈(2 : ℚ)⌉₊ = 2 := by
    rw [Nat.ceil_eq_iff (by norm_num)]
    norm_num
  simp only [unit_metric_hmc.sample_end, h1, h2, trajectory_ceil, hceil]
  simp [unit_metric_hmc.sample_start, unit_metric_hmc.sample_u, unit_metric_hmc.sample_point,
    ps_point.new, canonical_kernel, unit_metric_hmc.set_stepsize_and_T,
    unit_metric_hmc._update_L, unit_metric_hmc.new, draw_unit_gaus, normal_target_exp,
    normal_target, leapfrog]
  norm_num

theorem one_coordinate_accepts :
    ((normal_target_exp (fun x => 1 + x) 1 (3 / 10))._rand_uniform
      ((canonical_kernel indefinite).sample_u
        (normal_target_exp (fun x => 1 + x) 1 (3 / 10)) [0]).2).1 <
      (canonical_kernel indefinite).sample_acceptProb
        (normal_target_exp (fun x => 1 + x) 1 (3 / 10)) [0] [] := by
  have hu : ((normal_target_exp (fun x => 1 + x) 1 (3 / 10))._rand_uniform
      ((canonical_kernel indefinite).sample_u
        (normal_target_exp (fun x => 1 + x) 1 (3 / 10)) [0]).2).1 = 3 / 10 := by
    simp [normal_target_exp, normal_target]
  have hH0 : (canonical_kernel indefinite).sample_H0
      (normal_target_exp (fun x => 1 + x) 1 (3 / 10)) [0] [] = 1 / 2 := by
    simp [unit_metric_hmc.sample_H0, unit_metric_hmc.sample_start, unit_metric_hmc.sample_u,
      unit_metric_hmc.sample_point, ps_point.new, draw_unit_gaus, normal_target_exp,
      normal_target]
  rw [hu, unit_metric_hmc.sample_acceptProb, hH0, canonical_end]
  simp [normal_target_exp, normal_target]
  norm_num

theorem two_coordinates_accept :
    ((normal_target_exp (fun x => 1 + x) 1 (3 / 10))._rand_uniform
      ((canonical_kernel indefinite).sample_u
        (normal_target_exp (fun x => 1 + x) 1 (3 / 10)) [0, 0]).2).1 <
      (canonical_kernel indefinite).sample_acceptProb
        (normal_target_exp (fun x => 1 + x) 1 (3 / 10)) [0, 0] [5, 6, 7] := by
  have hu : ((normal_target_exp (fun x => 1 + x) 1 (3 / 10))._rand_uniform
      ((canonical_kernel indefinite).sample_u
        (normal_target_exp (fun x => 1 + x) 1 (3 / 10)) [0, 0]).2).1 = 3 / 10 := by
    simp [normal_target_exp, normal_target]
  have hH0 : (canonical_kernel indefinite).sample_H0
      (normal_target_exp (fun x => 1 + x) 1 (3 / 10)) [0, 0] [5, 6, 7] = 1 := by
    simp [unit_metric_hmc.sample_H0, unit_metric_hmc.sample_start, unit_metric_hmc.sample_u,
      unit_metric_hmc.sample_point, ps_point.new, draw_unit_gaus, normal_target_exp,
      normal_target]
    norm_num
  rw [hu, unit_metric_hmc.sample_acceptProb, hH0, two_coordinates_end]
  simp [normal_target_exp, normal_target]
  norm_num

/-- C15, as stated, fails: the kernel never consults the dimensions the model
declares. On the same kernel and target, a call with a position of one
coordinate and no discrete state and a call with a position of two
coordinates and a discrete state of three entries (at least one of which
disagrees with whatever the model declares) both perform the two integrator
steps and return 1; the second call makes two standard-normal draws and
leaves a position of two coordinates. -/
theorem sample_proceeds_on_any_length :
    ((canonical_kernel indefinite).sample
        (normal_target_exp (fun x => 1 + x) 1 (3 / 10)) [0] []).ret = 1 ∧
      ((canonical_kernel indefinite).sample
        (normal_target_exp (fun x => 1 + x) 1 (3 / 10)) [0] []).kernel.coll = 2 ∧
      ((canonical_kernel indefinite).sample
        (normal_target_exp (fun x => 1 + x) 1 (3 / 10)) [0, 0] [5, 6, 7]).ret = 1 ∧
      ((canonical_kernel indefinite).sample
        (normal_target_exp (fun x => 1 + x) 1 (3 / 10)) [0, 0] [5, 6, 7]).kernel.coll = 2 ∧
      ((canonical_kernel indefinite).sample
        (normal_target_exp (fun x => 1 + x) 1 (3 / 10)) [0, 0] [5, 6, 7]).q =
          [7 / 8, 7 / 8] ∧
      ((canonical_kernel indefinite).sample_u
        (normal_target_exp (fun x => 1 + x) 1 (3 / 10)) [0, 0]).1 = [1, 1] := by
  obtain ⟨h1, -⟩ := sample_accepts_of_draw_below _ _ _ _ one_coordinate_accepts
  obtain ⟨h2, h3⟩ := sample_accepts_of_draw_below _ _ _ _ two_coordinates_accept
  refine ⟨h1, ?_, h2, ?_, ?_, ?_⟩
  · rw [sample_kernel_coll, canonical_end]
  · rw [sample_kernel_coll, two_coordinates_end]
  · rw [h3, two_coordinates_end]
  · simp [unit_metric_hmc.sample_u, draw_unit_gaus, normal_target_exp, normal_target]

/-- C15, amended: `sample` makes no check of dimensions: for a position and a
discrete state of any length it sizes its working point and its vector of
standard-normal draws from `q.size()`, copies `q` and `r` into the working
point, and hands the two to `sampleP` and `init`. -/
theorem sample_sizes_from_position {G C : Type} (B : hmc_base G C)
    (k : unit_metric_hmc G C) (q : List ℚ) (r : List ℤ) :
    (unit_metric_hmc.sample_point q r).q = q ∧
      (unit_metric_hmc.sample_point q r).r = r ∧
      (unit_metric_hmc.sample_point q r).p.length = q.length ∧
      (k.sample_u B q).1.length = q.length ∧
      k.sample_start B q r =
        B.init (B.sampleP (k.coll, unit_metric_hmc.sample_point q r) (k.sample_u B q).1) := by
  refine ⟨rfl, rfl, ?_, (draw_unit_gaus_spec B q.length k.rng).1, rfl⟩
  simp [unit_metric_hmc.sample_point, ps_point.new]

/-! ## C17: step size above the integration time -/

/-- C17, as stated, fails: on a machine whose out-of-range conversions give
`INT_MIN`, `epsilon = 1` and `T = 2147483648` are positive with
`epsilon <= T`, and `_update_L` stores `L = -2147483648`, which is not
`>= 1`. -/
theorem update_L_overflow_below_one :
    0 < ((kernel_with 1 10 2147483648)._update_L indefinite)._epsilon ∧
      0 < ((kernel_with 1 10 2147483648)._update_L indefinite)._T ∧
      ((kernel_with 1 10 2147483648)._update_L indefinite)._epsilon ≤
        ((kernel_with 1 10 2147483648)._update_L indefinite)._T ∧
      ((kernel_with 1 10 2147483648)._update_L indefinite)._L = -2147483648 ∧
      ¬ 1 ≤ ((kernel_with 1 10 2147483648)._update_L indefinite)._L := by
  have hq : machine_quotient 2147483648 1 = 2147483648 := by
    have hd : is_double ((2147483648 : ℚ) / 1) := by
      have h := is_double_intCast 2147483648 (by norm_num)
      simpa using h
    rw [machine_quotient_of_double hd, div_one]
  have hr : ¬ representable 2147483648 1 := by
    simp [representable, INT_MAX, hq]
    intro _
    norm_num
  have hL : ((kernel_with 1 10 2147483648)._update_L indefinite)._L = -2147483648 := by
    simp only [unit_metric_hmc._update_L, kernel_with, static_cast_int, if_neg hr, indefinite,
      INT_MIN]
    norm_num
  refine ⟨?_, ?_, ?_, hL, ?_⟩
  · simp [unit_metric_hmc._update_L, kernel_with]
  · simp [unit_metric_hmc._update_L, kernel_with]
  · simp [unit_metric_hmc._update_L, kernel_with]
  · rw [hL]; norm_num

/-- C17, amended: for `epsilon > 0` and `T > 0` with `T / epsilon` below
`INT_MAX + 1`, `_update_L` yields `L >= 1` if and only if `epsilon <= T`. When
`epsilon > T` it yields `L = 0`; `sample` then performs no integrator step, so
`H_final = H0`, and with `exp(0) = 1` the acceptance probability is 1 and for
every uniform draw in `[0, 1)` `sample` returns 1 with the position set to the
position of the working point after `sampleP` and `init`. -/
theorem short_time_accepts {G C : Type} (pf : Platform) (B : hmc_base G C)
    (k : unit_metric_hmc G C) (q : List ℚ) (r : List ℤ)
    (he : 0 < k._epsilon) (hT : 0 < k._T)
    (hfit : k._T / k._epsilon < (INT_MAX : ℚ) + 1)
    (hexp : B.exp 0 = 1)
    (hu : 0 ≤ (B._rand_uniform ((k._update_L pf).sample_u B q).2).1 ∧
      (B._rand_uniform ((k._update_L pf).sample_u B q).2).1 < 1) :
    (1 ≤ (k._update_L pf)._L ↔ k._epsilon ≤ k._T) ∧
      (k._T < k._epsilon →
        (k._update_L pf)._L = 0 ∧
        (k._update_L pf).sample_end B q r = (k._update_L pf).sample_start B q r ∧
        B.H ((k._update_L pf).sample_end B q r) = (k._update_L pf).sample_H0 B q r ∧
        (k._update_L pf).sample_acceptProb B q r = 1 ∧
        ((k._update_L pf).sample B q r).ret = 1 ∧
        ((k._update_L pf).sample B q r).q = ((k._update_L pf).sample_start B q r).2.q) := by
  have hL : (k._update_L pf)._L = ((⌊machine_quotient k._T k._epsilon⌋ : ℤ) : ℚ) := by
    have h := static_cast_int_eq_floor pf (ne_of_gt he) (le_of_lt (div_pos hT he)) hfit
    simp [unit_metric_hmc._update_L, h]
  have hq0 : 0 ≤ machine_quotient k._T k._epsilon :=
    machine_quotient_nonneg (le_of_lt (div_pos hT he))
  have hsmall : k._T < k._epsilon → ⌊machine_quotient k._T k._epsilon⌋ = 0 := by
    intro hlt
    have habs : |machine_quotient k._T k._epsilon| < 2 ^ (0 : ℤ) := by
      apply abs_machine_quotient_lt
      rw [abs_of_pos hT, abs_of_pos he]
      simpa using hlt
    rw [Int.floor_eq_iff]
    exact ⟨by simpa using hq0, by simpa using (abs_lt.mp habs).2⟩
  constructor
  · rw [hL]
    have h1 : (1 : ℚ) ≤ ((⌊machine_quotient k._T k._epsilon⌋ : ℤ) : ℚ) ↔
        (1 : ℤ) ≤ ⌊machine_quotient k._T k._epsilon⌋ := by
      exact_mod_cast Iff.rfl
    rw [h1]
    constructor
    · intro h
      by_contra hn
      rw [hsmall (not_le.mp hn)] at h
      exact absurd h (by norm_num)
    · intro h
      rw [Int.le_floor, Int.cast_one]
      have h2 : (2 : ℚ) ^ (0 : ℤ) ≤ k._T / k._epsilon := by
        rw [zpow_zero]
        exact (one_le_div he).mpr h
      simpa using machine_quotient_ge_zpow h2
  · intro hlt
    have hz : (k._update_L pf)._L = 0 := by
      rw [hL, hsmall hlt]
      norm_num
    have hend : (k._update_L pf).sample_end B q r = (k._update_L pf).sample_start B q r := by
      rw [unit_metric_hmc.sample_end, hz, trajectory_ceil]
      simp
    have hp : (k._update_L pf).sample_acceptProb B q r = 1 := by
      rw [unit_metric_hmc.sample_acceptProb, hend, unit_metric_hmc.sample_H0, sub_self, hexp]
    have hdraw : (B._rand_uniform ((k._update_L pf).sample_u B q).2).1 <
        (k._update_L pf).sample_acceptProb B q r := by
      rw [hp]
      exact hu.2
    obtain ⟨hret, hq⟩ := sample_accepts_of_draw_below B (k._update_L pf) q r hdraw
    refine ⟨hz, hend, ?_, hp, hret, ?_⟩
    · rw [hend, unit_metric_hmc.sample_H0]
    · rw [hq, hend]

/-- Witness for C17: `epsilon = 2` above `T = 1` on the standard normal
target; the call returns 1 without an integrator step. -/
theorem short_time_accepts_witness :
    (((kernel_with 2 10 1)._update_L indefinite).sample (normal_target 1 (3 / 10)) [0] []).ret
      = 1 :=
  ((short_time_accepts indefinite (normal_target 1 (3 / 10)) (kernel_with 2 10 1) [0] []
    (by simp [kernel_with]) (by simp [kernel_with])
    (by simp [kernel_with, INT_MAX]; norm_num)
    (by simp [normal_target])
    (by simp [normal_target]; norm_num)).2 (by simp [kernel_with])).2.2.2.2.1


/-! ## C18: a step count that is not an integer -/

theorem is_double_seven_tenths : is_double double_seven_tenths := by
  have h := is_double_int_mul_zpow 3152519739159347 (-52) (by norm_num)
  have e : ((3152519739159347 : ℤ) : ℚ) * 2 ^ (-52 : ℤ) = double_seven_tenths := by
    norm_num [double_seven_tenths]
  rwa [e] at h

theorem is_double_below_seven : is_double below_seven := by
  have h := is_double_int_mul_zpow 7881299347898367 (-50) (by norm_num)
  have e : ((7881299347898367 : ℤ) : ℚ) * 2 ^ (-50 : ℤ) = below_seven := by
    norm_num [below_seven]
  rwa [e] at h

theorem product_seven_tenths_below_seven :
    machine_product double_seven_tenths below_seven =
      5516909543528857 / 1125899906842624 := by
  unfold machine_product
  rw [if_pos ⟨is_double_seven_tenths, is_double_below_seven⟩]
  have h1 : (2 : ℚ) ^ (2 : ℤ) ≤ |double_seven_tenths * below_seven| := by
    rw [abs_of_pos (by norm_num [double_seven_tenths, below_seven])]
    norm_num [double_seven_tenths, below_seven]
  have h2 : |double_seven_tenths * below_seven| < (2 : ℚ) ^ ((2 : ℤ) + 1) := by
    rw [abs_of_pos (by norm_num [double_seven_tenths, below_seven])]
    norm_num [double_seven_tenths, below_seven]
  rw [round64_of_binade h1 h2]
  have h3 : round_half_even (double_seven_tenths * below_seven / 2 ^ ((2 : ℤ) - 52)) =
      5516909543528857 := by
    apply round_half_even_eq
    rw [abs_lt]
    constructor <;> norm_num [double_seven_tenths, below_seven]
  rw [h3]
  norm_num

theorem quotient_seven_tenths_below_seven :
    machine_quotient (5516909543528857 / 1125899906842624) double_seven_tenths = 7 := by
  have hd : is_double (5516909543528857 / 1125899906842624) := by
    have h := is_double_int_mul_zpow 5516909543528857 (-50) (by norm_num)
    have e : ((5516909543528857 : ℤ) : ℚ) * 2 ^ (-50 : ℤ) =
        5516909543528857 / 1125899906842624 := by norm_num
    rwa [e] at h
  unfold machine_quotient
  rw [if_pos ⟨hd, is_double_seven_tenths⟩]
  have h1 : (2 : ℚ) ^ (2 : ℤ) ≤
      |5516909543528857 / 1125899906842624 / double_seven_tenths| := by
    rw [abs_of_pos (by norm_num [double_seven_tenths])]
    norm_num [double_seven_tenths]
  have h2 : |5516909543528857 / 1125899906842624 / double_seven_tenths| <
      (2 : ℚ) ^ ((2 : ℤ) + 1) := by
    rw [abs_of_pos (by norm_num [double_seven_tenths])]
    norm_num [double_seven_tenths]
  rw [round64_of_binade h1 h2]
  have h3 : round_half_even
      (5516909543528857 / 1125899906842624 / double_seven_tenths / 2 ^ ((2 : ℤ) - 52)) =
        7881299347898368 := by
    apply round_half_even_eq
    rw [abs_lt]
    constructor <;> norm_num [double_seven_tenths]
  rw [h3]
  norm_num

/-- The quotient of the rounded product `e * l` by `e`, itself rounded, is
within the relative distance `2 ^ -51` of `l`. -/
theorem quotient_of_product_error (e l : ℚ) (he : e ≠ 0) :
    |machine_quotient (machine_product e l) e - l| ≤ 2 ^ (-51 : ℤ) * |l| := by
  have hpos : 0 < |e| := abs_pos.mpr he
  have h1 := machine_product_error e l
  have h2 := machine_quotient_error (machine_product e l) e
  have hd : |machine_product e l / e - l| ≤ 2 ^ (-53 : ℤ) * |l| := by
    have hx : machine_product e l / e - l = (machine_product e l - e * l) / e := by
      field_simp
    rw [hx, abs_div, div_le_iff₀ hpos]
    rw [abs_mul] at h1
    linarith
  have ht : |machine_product e l / e| ≤ |l| + 2 ^ (-53 : ℤ) * |l| := by
    have hx : machine_product e l / e = l + (machine_product e l / e - l) := by ring
    calc |machine_product e l / e| = |l + (machine_product e l / e - l)| := by rw [← hx]
      _ ≤ |l| + |machine_product e l / e - l| := abs_add _ _
      _ ≤ |l| + 2 ^ (-53 : ℤ) * |l| := by linarith
  have hx : machine_quotient (machine_product e l) e - l =
      (machine_quotient (machine_product e l) e - machine_product e l / e) +
        (machine_product e l / e - l) := by ring
  have hl : 0 ≤ |l| := abs_nonneg l
  have hs : |machine_quotient (machine_product e l) e - machine_product e l / e| ≤
      2 ^ (-53 : ℤ) * (|l| + 2 ^ (-53 : ℤ) * |l|) :=
    le_trans h2 (mul_le_mul_of_nonneg_left ht (by positivity))
  calc |machine_quotient (machine_product e l) e - l|
      = |(machine_quotient (machine_product e l) e - machine_product e l / e) +
          (machine_product e l / e - l)| := by rw [← hx]
    _ ≤ |machine_quotient (machine_product e l) e - machine_product e l / e| +
          |machine_product e l / e - l| := abs_add _ _
    _ ≤ 2 ^ (-53 : ℤ) * (|l| + 2 ^ (-53 : ℤ) * |l|) + 2 ^ (-53 : ℤ) * |l| := by linarith
    _ ≤ 2 ^ (-51 : ℤ) * |l| := by
      norm_num
      linarith

/-- C18, as stated, fails, in two ways. `set_stepsize_and_L(1, 3000000000.5)`
stores the positive, non-integral `L = 3000000000.5`, above `INT_MAX`: the
`int` counter of the trajectory loop never reaches it and the loop does not
exit, so the integrator is not called `ceil(l)` times. And
`set_stepsize_and_L(0.7, 7 - 2 ^ -50)`, both arguments binary64 values, stores
a rounded product `T` for which the machine quotient `T / epsilon` is 7, whose
floor is not `floor(l) = 6`. -/
theorem fractional_step_count_breaks :
    (((kernel_with double_tenth 10 1).set_stepsize_and_L 1 (6000000001 / 2))._L = 6000000001 / 2 ∧
      ¬ ∃ fuel : ℕ,
        (((kernel_with double_tenth 10 1).set_stepsize_and_L 1 (6000000001 / 2)).sample_loop
          (normal_target 1 (3 / 10)) [0] [] fuel).isSome = true) ∧
    (is_double double_seven_tenths ∧ is_double below_seven ∧
      ((kernel_with double_tenth 10 1).set_stepsize_and_L double_seven_tenths below_seven)._L =
        below_seven ∧
      ⌊below_seven⌋ = 6 ∧ ⌈below_seven⌉ = 7 ∧
      ⌊machine_quotient
          ((kernel_with double_tenth 10 1).set_stepsize_and_L double_seven_tenths below_seven)._T
          ((kernel_with double_tenth 10 1).set_stepsize_and_L double_seven_tenths
            below_seven)._epsilon⌋ = 7) := by
  refine ⟨⟨rfl, ?_⟩, is_double_seven_tenths, is_double_below_seven, rfl, ?_, ?_, ?_⟩
  · rintro ⟨fuel, h⟩
    have hL : (INT_MAX : ℚ) <
        ((kernel_with double_tenth 10 1).set_stepsize_and_L 1 (6000000001 / 2))._L := by
      simp [unit_metric_hmc.set_stepsize_and_L, INT_MAX]
      norm_num
    rw [unit_metric_hmc.sample_loop,
      trajectory_int_never_exits _ hL fuel 0 _ (by decide)] at h
    simp at h
  · rw [Int.floor_eq_iff]
    constructor <;> norm_num [below_seven]
  · rw [Int.ceil_eq_iff]
    constructor <;> norm_num [below_seven]
  · show ⌊machine_quotient (machine_product double_seven_tenths below_seven)
      double_seven_tenths⌋ = 7
    rw [product_seven_tenths_below_seven, quotient_seven_tenths_below_seven]
    exact Int.floor_intCast 7

/-- C18, amended: `set_stepsize_and_L(e, l)` stores `L = l` unrounded. When
`l <= INT_MAX`, the trajectory loop of `sample` exits after calling the
integrator `ceil(l)` times when `l > 0` and not at all when `l <= 0`. When
`e` is not zero, the stored product `T` and the machine quotient `T / epsilon`
are in the normal range, and `l` is at least the relative distance `2 ^ -51`
away from the integers below and above it, the floor of the machine quotient
`T / epsilon` is `floor(l)`. -/
theorem fractional_step_count {G C : Type} (B : hmc_base G C) (k : unit_metric_hmc G C)
    (e l : ℚ) (q : List ℚ) (r : List ℤ) :
    (k.set_stepsize_and_L e l)._L = l ∧
      (l ≤ (INT_MAX : ℚ) →
        (∀ fuel : ℕ, ⌈l⌉₊ < fuel →
          (k.set_stepsize_and_L e l).sample_loop B q r fuel =
            some ((fun w => B.evolve w e)^[⌈l⌉₊]
              ((k.set_stepsize_and_L e l).sample_start B q r))) ∧
        (k.set_stepsize_and_L e l).sample_end B q r =
          (fun w => B.evolve w e)^[⌈l⌉₊] ((k.set_stepsize_and_L e l).sample_start B q r)) ∧
      (0 < l → ((⌈l⌉₊ : ℕ) : ℤ) = ⌈l⌉) ∧
      (l ≤ 0 → ⌈l⌉₊ = 0) ∧
      (e ≠ 0 →
        normal_range (k.set_stepsize_and_L e l)._T →
        normal_range
          (machine_quotient (k.set_stepsize_and_L e l)._T (k.set_stepsize_and_L e l)._epsilon) →
        (⌊l⌋ : ℚ) + 2 ^ (-51 : ℤ) * |l| ≤ l →
        l + 2 ^ (-51 : ℤ) * |l| < (⌊l⌋ : ℚ) + 1 →
        ⌊machine_quotient (k.set_stepsize_and_L e l)._T (k.set_stepsize_and_L e l)._epsilon⌋
          = ⌊l⌋) := by
  refine ⟨rfl, fun hmax => ⟨fun fuel hf => ?_, ?_⟩, ?_, ?_, ?_⟩
  · exact (trajectory_int_exits (fun w => B.evolve w e) hmax
      ((k.set_stepsize_and_L e l).sample_start B q r) fuel hf).1
  · rw [unit_metric_hmc.sample_end, trajectory_ceil]
    rfl
  · intro hl
    exact Int.natCast_ceil_eq_ceil (le_of_lt hl)
  · intro hl
    exact Nat.ceil_eq_zero.mpr hl
  · intro he _ _ hlo hhi
    show ⌊machine_quotient (machine_product e l) e⌋ = ⌊l⌋
    have h := abs_le.mp (quotient_of_product_error e l he)
    rw [Int.floor_eq_iff]
    constructor
    · linarith [h.1]
    · linarith [h.2]

theorem machine_product_five_halves : machine_product 1 (5 / 2) = 5 / 2 := by
  have hd : is_double ((1 : ℚ) * (5 / 2)) := by
    have h := is_double_int_mul_zpow 5 (-1) (by norm_num)
    norm_num at h ⊢
    exact h
  rw [machine_product_of_double hd, one_mul]

theorem machine_quotient_five_halves : machine_quotient (5 / 2) 1 = 5 / 2 := by
  have hd : is_double ((5 / 2 : ℚ) / 1) := by
    have h := is_double_int_mul_zpow 5 (-1) (by norm_num)
    norm_num at h ⊢
    exact h
  rw [machine_quotient_of_double hd, div_one]

theorem normal_range_five_halves : normal_range (5 / 2) := by
  unfold normal_range
  rw [abs_of_pos (by norm_num)]
  constructor <;> norm_num

/-- Witness for C18: `set_stepsize_and_L(1, 2.5)` on the kernel with the
triple of the constructor stores `L = 2.5`, the loop exits after 3 calls of the
integrator, and the machine quotient `T / epsilon` has floor 2. -/
theorem fractional_step_count_witness :
    ((kernel_with double_tenth 10 1).set_stepsize_and_L 1 (5 / 2))._L = 5 / 2 ∧
      ((kernel_with double_tenth 10 1).set_stepsize_and_L 1 (5 / 2)).sample_loop
          (normal_target 1 (3 / 10)) [0] [] 4 =
        some ((fun w => (normal_target 1 (3 / 10)).evolve w 1)^[3]
          (((kernel_with double_tenth 10 1).set_stepsize_and_L 1 (5 / 2)).sample_start
            (normal_target 1 (3 / 10)) [0] [])) ∧
      ⌊machine_quotient ((kernel_with double_tenth 10 1).set_stepsize_and_L 1 (5 / 2))._T
        ((kernel_with double_tenth 10 1).set_stepsize_and_L 1 (5 / 2))._epsilon⌋ = 2 := by
  have h := fractional_step_count (normal_target 1 (3 / 10)) (kernel_with double_tenth 10 1)
    1 (5 / 2) [0] []
  have hT : ((kernel_with double_tenth 10 1).set_stepsize_and_L 1 (5 / 2))._T = 5 / 2 :=
    machine_product_five_halves
  have hE : ((kernel_with double_tenth 10 1).set_stepsize_and_L 1 (5 / 2))._epsilon = 1 := rfl
  have hfl : ⌊(5 / 2 : ℚ)⌋ = 2 := by
    rw [Int.floor_eq_iff]
    constructor <;> norm_num
  have hc : ⌈(5 / 2 : ℚ)⌉₊ = 3 := ceil_five_halves
  have hloop := (h.2.1 (by norm_num [INT_MAX])).1 4 (by rw [hc]; decide)
  rw [hc] at hloop
  have hfloor := h.2.2.2.2 one_ne_zero
    (by rw [hT]; exact normal_range_five_halves)
    (by rw [hT, hE, machine_quotient_five_halves]; exact normal_range_five_halves)
    (by rw [hfl, abs_of_pos (by norm_num)]; norm_num)
    (by rw [hfl, abs_of_pos (by norm_num)]; norm_num)
  rw [hfl] at hfloor
  exact ⟨h.1, hloop, hfloor⟩

end stan.mcmc
